import Mathlib

/-!
Verification development for the AquesTalk TTS normalization and
fallback-retry pipeline of the `audc` repository
(`app_video_app/aq_normalize.py`, `app_video_app/video_worker.py`,
`app_video_app/synth_aquestalk.py`).

Strings are modelled as `List Char`.  External collaborators (the MeCab
reading service, the native synthesizer, ffmpeg resampling/concatenation)
are modelled as oracles supplied through a `World` structure; the
orchestrator and the clause synthesizer are embedded as explicit
state-passing functions over those oracles.

`unicodedata.normalize("NFKC", ·)` is modelled on the fragment of the
Unicode database relevant to the characters this pipeline manipulates:
fullwidth ASCII forms, space variants, and the combining (semi-)voiced
sound marks with their kana compositions.  All other characters are
NFKC-inert in the model.
-/

/-! ## Character classes -/

/-- Python `\s` / `str.strip()` whitespace (Unicode), as used by
`re.sub(r'\s+', ' ', s)` and `.strip()` in the source. -/
def isWsChar (c : Char) : Bool :=
  let n := c.toNat
  (0x9 ≤ n && n ≤ 0xD) || (0x1C ≤ n && n ≤ 0x1F) || n = 0x20 || n = 0x85 ||
  n = 0xA0 || n = 0x1680 || (0x2000 ≤ n && n ≤ 0x200A) || n = 0x2028 ||
  n = 0x2029 || n = 0x202F || n = 0x205F || n = 0x3000

/-- The control-character class removed by `aq_normalize.py` line 33:
`[\u0000-\u001F\u007F-\u009F]`. -/
def isCtrlChar (c : Char) : Bool :=
  let n := c.toNat
  n ≤ 0x1F || (0x7F ≤ n && n ≤ 0x9F)

/-- The ASCII Latin letters removed by `aq_normalize.py` line 36: `[A-Za-z]`. -/
def isLatinLetter (c : Char) : Bool :=
  let n := c.toNat
  (0x41 ≤ n && n ≤ 0x5A) || (0x61 ≤ n && n ≤ 0x7A)

/-! ## Whitespace collapse and strip

`re.sub(r'\s+', ' ', s).strip()`: every maximal whitespace run becomes a
single ASCII space, then leading/trailing whitespace is dropped. -/

/-- Replace each maximal run of whitespace by a single space
(`re.sub(r'\s+', ' ', s)`).  Processing from the right, a whitespace
character merges into an already-emitted space. -/
def collapseRuns : List Char → List Char
  | [] => []
  | c :: cs =>
    if isWsChar c then
      match collapseRuns cs with
      | ' ' :: rest => ' ' :: rest
      | x => ' ' :: x
    else c :: collapseRuns cs

/-- Drop the maximal trailing run of characters satisfying `p`. -/
def dropTrail (p : Char → Bool) : List Char → List Char
  | [] => []
  | c :: cs =>
    let r := dropTrail p cs
    if r = [] && p c then [] else c :: r

/-- Python `str.strip()`. -/
def pyStrip (s : List Char) : List Char :=
  dropTrail isWsChar (s.dropWhile isWsChar)

/-- Erase every whitespace character (used to compare strings
"modulo whitespace"). -/
def eraseWs (s : List Char) : List Char :=
  s.filter (fun c => !isWsChar c)

/-! ## NFKC fragment -/

/-- Modelled fragment of the NFKC compatibility decomposition
(`unicodedata.normalize("NFKC", ·)` step 1): fullwidth ASCII forms
U+FF01–U+FF5E map to their ASCII counterparts, the ideographic space
U+3000 / no-break space U+00A0 / typographic spaces U+2000–U+200A map to
U+0020.  All other characters are left as themselves. -/
def nfkcD (c : Char) : List Char :=
  let n := c.toNat
  if n = 0x3000 then [' ']
  else if n = 0xA0 then [' ']
  else if 0x2000 ≤ n && n ≤ 0x200A then [' ']
  else if 0xFF01 ≤ n && n ≤ 0xFF5E then [Char.ofNat (n - 0xFF01 + 0x21)]
  else [c]

/-- The combining voiced / semi-voiced sound marks U+3099 / U+309A. -/
def isCombiningMark (c : Char) : Bool :=
  c.toNat = 0x3099 || c.toNat = 0x309A

/-- Modelled fragment of canonical composition: a kana base followed by a
combining (semi-)voiced sound mark composes into the precomposed kana.
Only pairs whose second component is a combining mark compose. -/
def composePair (a b : Char) : Option Char :=
  if b.toNat = 0x3099 then
    -- hiragana/katakana rows that take the voiced mark (fragment)
    if a.toNat = 0x304B then some (Char.ofNat 0x304C)      -- か ゙ → が
    else if a.toNat = 0x306F then some (Char.ofNat 0x3070) -- は ゙ → ば
    else if a.toNat = 0x30AB then some (Char.ofNat 0x30AC) -- カ ゙ → ガ
    else if a.toNat = 0x30A6 then some (Char.ofNat 0x30F4) -- ウ ゙ → ヴ
    else none
  else if b.toNat = 0x309A then
    if a.toNat = 0x306F then some (Char.ofNat 0x3071)      -- は ゚ → ぱ
    else if a.toNat = 0x30CF then some (Char.ofNat 0x30D1) -- ハ ゚ → パ
    else none
  else none

/-- Canonical composition pass: compose each pair of adjacent characters
left-to-right. -/
def nfkcComposeGo (a : Char) : List Char → List Char
  | [] => [a]
  | b :: rest =>
    match composePair a b with
    | some c => nfkcComposeGo c rest
    | none => a :: nfkcComposeGo b rest

/-- Canonical composition over a whole string. -/
def nfkcCompose : List Char → List Char
  | [] => []
  | a :: rest => nfkcComposeGo a rest

/-- Modelled `unicodedata.normalize("NFKC", s)`: compatibility
decomposition followed by canonical composition. -/
def nfkc (s : List Char) : List Char :=
  nfkcCompose (List.flatten (s.map nfkcD))

/-! ## `aq_normalize.normalize_for_aquestalk` -/

/-- The fixed substitution table of `aq_normalize.py` lines 20–30.  Every
key and value is a single character and no value is a key, so the
sequence of `str.replace` calls is a character-wise map. -/
def aqMap (c : Char) : Char :=
  let n := c.toNat
  if n = 0x30C2 then Char.ofNat 0x30B8      -- ヂ → ジ
  else if n = 0x30C5 then Char.ofNat 0x30BA -- ヅ → ズ
  else if n = 0x30F4 then Char.ofNat 0x30D6 -- ヴ → ブ
  else if n = 0x3094 then Char.ofNat 0x3076 -- ゔ → ぶ
  else if n = 0x30FB then Char.ofNat 0x3001 -- ・ → 、
  else if n = 0x301C then Char.ofNat 0x30FC -- 〜 → ー
  else if n = 0x2010 then Char.ofNat 0x30FC -- ‐ → ー
  else c

/-- `jaconv.kata2hira`: fullwidth katakana U+30A1–U+30F6 shift down by
0x60 to their hiragana counterparts; everything else is unchanged. -/
def kata2hira (c : Char) : Char :=
  let n := c.toNat
  if 0x30A1 ≤ n && n ≤ 0x30F6 then Char.ofNat (n - 0x60) else c

/-- `aq_normalize.normalize_for_aquestalk(text, to_hiragana)`:
NFKC-normalize, apply the substitution table, remove control characters,
remove ASCII letters, collapse whitespace and strip, then optionally
convert katakana to hiragana (`jaconv` present). -/
def normalize_for_aquestalk (toHiragana : Bool) (s : List Char) : List Char :=
  if s = [] then s
  else
    let s1 := nfkc s
    let s2 := s1.map aqMap
    let s3 := s2.filter (fun c => !isCtrlChar c)
    let s4 := s3.filter (fun c => !isLatinLetter c)
    let s5 := pyStrip (collapseRuns s4)
    if toHiragana then s5.map kata2hira else s5

example : normalize_for_aquestalk false ("ヴあ\tア".toList) = "ブあア".toList := by decide
example : normalize_for_aquestalk false ("ヴあ  ア ".toList) = "ブあ ア".toList := by decide
example : normalize_for_aquestalk true ("カナkana".toList) = "かな".toList := by decide
example :
    normalize_for_aquestalk false (['か', 'a', '゙']) = ['か', '゙'] := by decide
example :
    normalize_for_aquestalk false (normalize_for_aquestalk false (['か', 'a', '゙'])) =
      ['が'] := by decide

/-! ## `video_worker.py` sanitizer helpers -/

/-- `video_worker.to_fullwidth_digits`: ASCII digits 0–9 translate to the
fullwidth digits ０–９. -/
def to_fullwidth_digits (s : List Char) : List Char :=
  s.map fun c =>
    let n := c.toNat
    if 0x30 ≤ n && n ≤ 0x39 then Char.ofNat (n + 0xFEE0) else c

/-- Character-wise `video_worker.hira_to_kata`: hiragana U+3041–U+3096
shift up by 0x60 to katakana. -/
def hiraToKataChar (c : Char) : Char :=
  let n := c.toNat
  if 0x3041 ≤ n && n ≤ 0x3096 then Char.ofNat (n + 0x60) else c

/-- `video_worker.hira_to_kata` on a whole string. -/
def hira_to_kata (s : List Char) : List Char :=
  s.map hiraToKataChar

/-- The retained character class of `sanitize_yomi_keep_katakana` (and of
the katakana-only variants elsewhere): `[ァ-ヴー　\s、。！？]`. -/
def isYomiKeep (c : Char) : Bool :=
  let n := c.toNat
  (0x30A1 ≤ n && n ≤ 0x30F4) || n = 0x30FC || n = 0x3000 || isWsChar c ||
  n = 0x3001 || n = 0x3002 || n = 0xFF01 || n = 0xFF1F

/-- The punctuation replacements of `sanitize_yomi_keep_katakana` lines
552–555: ASCII punctuation to fullwidth Japanese punctuation, curly and
straight quotes removed. -/
def yomiPunctMap (c : Char) : List Char :=
  let n := c.toNat
  if n = 0x2C then [Char.ofNat 0x3001]       -- , → 、
  else if n = 0x2E then [Char.ofNat 0x3002]  -- . → 。
  else if n = 0x3F then [Char.ofNat 0xFF1F]  -- ? → ？
  else if n = 0x21 then [Char.ofNat 0xFF01]  -- ! → ！
  else if n = 0x3B then [Char.ofNat 0x3001]  -- ; → 、
  else if n = 0x3A then [Char.ofNat 0x3001]  -- : → 、
  else if n = 0x201C || n = 0x201D || n = 0x2018 || n = 0x2019 ||
          n = 0x22 || n = 0x27 then []       -- quotes removed
  else [c]

/-- `video_worker.sanitize_yomi_keep_katakana`: convert hiragana to
katakana, normalize punctuation, keep only the katakana class, collapse
whitespace and strip. -/
def sanitize_yomi_keep_katakana (y : List Char) : List Char :=
  if y = [] then y
  else
    let s1 := hira_to_kata y
    let s2 := List.flatten (s1.map yomiPunctMap)
    let s3 := s2.filter isYomiKeep
    pyStrip (collapseRuns s3)

/-- The retained class of `_RETAIN_JP` (and of `_AGGRESSIVE_REMOVE_RE`,
whose extra entries all lie inside these ranges): Japanese blocks
U+3000–U+30FF, CJK U+4E00–U+9FFF, fullwidth forms U+FF01–U+FF60, and
whitespace. -/
def retainJP (c : Char) : Bool :=
  let n := c.toNat
  (0x3000 ≤ n && n ≤ 0x30FF) || (0x4E00 ≤ n && n ≤ 0x9FFF) ||
  (0xFF01 ≤ n && n ≤ 0xFF60) || isWsChar c

/-- `video_worker.sanitize_for_aquestalk_fallback`: keep the Japanese
character class, collapse whitespace and strip. -/
def sanitize_for_aquestalk_fallback (s : List Char) : List Char :=
  if s = [] then s else pyStrip (collapseRuns (s.filter retainJP))

/-- The bracket/quote class `_AGGRESSIVE_PUNCT_RE` removed by
`aggressive_sanitize`. -/
def isBracketChar (c : Char) : Bool :=
  let n := c.toNat
  n = 0x300C || n = 0x300D || n = 0x300E || n = 0x300F || n = 0x3010 ||
  n = 0x3011 || n = 0xFF1C || n = 0xFF1E || n = 0x3008 || n = 0x3009 ||
  n = 0x300A || n = 0x300B || n = 0x5B || n = 0x5D || n = 0x28 ||
  n = 0x29 || n = 0x3C || n = 0x3E || n = 0x7B || n = 0x7D

/-- `video_worker.aggressive_sanitize`: fullwidth digits, brackets
removed, Japanese-only class, then prefer the katakana-only variant if it
is non-empty. -/
def aggressive_sanitize (s : List Char) : List Char :=
  if s = [] then s
  else
    let t0 := to_fullwidth_digits s
    let t1 := t0.filter (fun c => !isBracketChar c)
    let t2 := t1.filter retainJP
    let t := pyStrip (collapseRuns t2)
    let kat := pyStrip (collapseRuns ((hira_to_kata t).filter isYomiKeep))
    if kat = [] then t else kat

/-! ## `original_is_likely_problematic` -/

/-- The ASCII/typographic character class of `_problematic_re`. -/
def problemChar (c : Char) : Bool :=
  let n := c.toNat
  (0x41 ≤ n && n ≤ 0x5A) || (0x61 ≤ n && n ≤ 0x7A) || (0x30 ≤ n && n ≤ 0x39) ||
  n = 0x5B || n = 0x5D || n = 0x28 || n = 0x29 || n = 0x3C || n = 0x3E ||
  n = 0x40 || n = 0x23 || n = 0x24 || n = 0x25 || n = 0x5E || n = 0x26 ||
  n = 0x2A || n = 0x5C || n = 0x2F || n = 0x7E || n = 0x60 || n = 0x5F ||
  n = 0x3D || n = 0x2B || n = 0x7C || n = 0x3A || n = 0x3B || n = 0x22 ||
  n = 0x27 ||
  n = 0x201C || n = 0x201D || n = 0x2018 || n = 0x2019 || n = 0x2026 ||
  n = 0x2D || n = 0x2013 || n = 0x2014

/-- CJK ideograph range `一-龯` of the digit-adjacency patterns. -/
def isCjkChar (c : Char) : Bool :=
  0x4E00 ≤ c.toNat && c.toNat ≤ 0x9FAF

/-- Python `\d`, modelled on the digits this pipeline produces: ASCII
digits and fullwidth digits. -/
def isPyDigit (c : Char) : Bool :=
  let n := c.toNat
  (0x30 ≤ n && n ≤ 0x39) || (0xFF10 ≤ n && n ≤ 0xFF19)

/-- The counter words 万, 億, 兆 of the `\d+[万億兆]` pattern. -/
def isCounterChar (c : Char) : Bool :=
  c.toNat = 0x4E07 || c.toNat = 0x5104 || c.toNat = 0x5146

/-- Does the string contain an adjacent pair whose first character
satisfies `p` and second satisfies `q`? -/
def hasAdjacent (p q : Char → Bool) : List Char → Bool
  | a :: b :: t => (p a && q b) || hasAdjacent p q (b :: t)
  | _ => false

/-- `video_worker.original_is_likely_problematic`. -/
def original_is_likely_problematic (s : List Char) : Bool :=
  if s = [] then false
  else
    s.any problemChar ||
    (hasAdjacent isPyDigit isCjkChar s || hasAdjacent isCjkChar isPyDigit s) ||
    hasAdjacent isPyDigit isCounterChar s

example : original_is_likely_problematic ("こんにちは".toList) = false := by decide
example : original_is_likely_problematic ("３万えん".toList) = true := by decide
example : original_is_likely_problematic ("abcこん".toList) = true := by decide

/-! ## Clause splitting (`synthesize_aquestalk_clauses` lines 768–776) -/

/-- The clause-terminating delimiters `[、。．!.?！？,，;；]`. -/
def isClauseDelim (c : Char) : Bool :=
  let n := c.toNat
  n = 0x3001 || n = 0x3002 || n = 0xFF0E || n = 0x21 || n = 0x2E ||
  n = 0x3F || n = 0xFF01 || n = 0xFF1F || n = 0x2C || n = 0xFF0C ||
  n = 0x3B || n = 0xFF1B

/-- `re.split(r'([、。．!.?！？,，;；])', s)`: the alternating list of
texts (even positions) and single-character delimiters (odd positions). -/
def resplit : List Char → List (List Char)
  | [] => [[]]
  | c :: cs =>
    if isClauseDelim c then [] :: [c] :: resplit cs
    else
      match resplit cs with
      | t :: rest => (c :: t) :: rest
      | [] => [[c]]

/-- Pair each text part (stripped) with its following delimiter, dropping
pairs where both sides are empty (`if part or delim`). -/
def pairUp : List (List Char) → List (List Char × List Char)
  | [] => []
  | [p] => if pyStrip p = [] then [] else [(pyStrip p, [])]
  | p :: d :: rest =>
    (if pyStrip p = [] ∧ d = [] then [] else [(pyStrip p, d)]) ++ pairUp rest

/-- The clause list of `synthesize_aquestalk_clauses`: split at
delimiters; if nothing survives, the whole utterance (stripped) is one
clause. -/
def clausesOf (s : List Char) : List (List Char × List Char) :=
  let c := pairUp (resplit s)
  if c = [] then [(pyStrip s, [])] else c

/-- Concatenate all clause texts and delimiters in order. -/
def joinClauses (cl : List (List Char × List Char)) : List Char :=
  cl.foldr (fun p acc => p.1 ++ p.2 ++ acc) []

example :
    clausesOf ("こんにちは、元気？".toList) =
      [("こんにちは".toList, "、".toList), ("元気".toList, "？".toList)] := by decide
example : clausesOf ("  ".toList) = [([], [])] := by decide
example :
    eraseWs (joinClauses (clausesOf ("あ 、い".toList))) =
      eraseWs ("あ 、い".toList) := by decide

/-! ## Error-message classification (`generate_tts_audio` line 1270) -/

/-- Is `p` an initial segment of `l`? -/
def leadsList : List Char → List Char → Bool
  | [], _ => true
  | _ :: _, [] => false
  | a :: as, b :: bs => (a = b) && leadsList as bs

/-- Does `l` contain `p` as a contiguous subsequence (Python `p in l`)? -/
def containsSeq (p : List Char) (l : List Char) : Bool :=
  match l with
  | [] => p.isEmpty
  | _ :: t => leadsList p l || containsSeq p t

/-- The orchestrator's malformed-symbol (undefined reading, AquesTalk
error 105) classification:
`any(k in emsg for k in ("未定義", "読み記号", "105", "未定義の読み"))`. -/
def is105Error (e : List Char) : Bool :=
  containsSeq ("未定義".toList) e || containsSeq ("読み記号".toList) e ||
  containsSeq ("105".toList) e || containsSeq ("未定義の読み".toList) e

/-- ASCII lower-casing, for the spec-side matcher. -/
def asciiLower (c : Char) : Char :=
  let n := c.toNat
  if 0x41 ≤ n && n ≤ 0x5A then Char.ofNat (n + 0x20) else c

/-- Modelled from the spec: the specified classification "must match on
substrings meaning 'undefined' and 'reading symbol', case-insensitively,
in whatever language the error text arrives" — here instantiated for an
English-language error message carrying both meanings. -/
def specMalformedMeaning (e : List Char) : Bool :=
  let low := e.map asciiLower
  containsSeq ("undefined".toList) low && containsSeq ("reading symbol".toList) low

example : is105Error ("AquesTalk 未定義の読み記号があります".toList) = true := by decide
example : is105Error ("error code 105".toList) = true := by decide
example : is105Error ("Undefined reading symbol".toList) = false := by decide
example : specMalformedMeaning ("Undefined reading symbol".toList) = true := by decide

/-! ## Candidate generation (`generate_tts_audio` lines 999–1107) -/

/-- The prepared raw text: digits made fullwidth, then normalized when the
normalization produces something non-empty (lines 999–1017). -/
def preppedOf (forceHiragana : Bool) (sentence : List Char) : List Char :=
  let p := to_fullwidth_digits sentence
  let np := normalize_for_aquestalk forceHiragana p
  if np ≠ [] then np else p

/-- Kanji detector of line 1042 (`[一-鿿]`). -/
def hasKanji (s : List Char) : Bool :=
  s.any fun c => 0x4E00 ≤ c.toNat && c.toNat ≤ 0x9FFF

/-- Kana detector of line 1045 (`[ぁ-ゔァ-ヴー]`). -/
def hasKana (s : List Char) : Bool :=
  s.any fun c =>
    let n := c.toNat
    (0x3041 ≤ n && n ≤ 0x3094) || (0x30A1 ≤ n && n ≤ 0x30F4) || n = 0x30FC

/-- Lines 1042–1048: when the helper reading still contains kanji, prefer
the CLI `-Oyomi` reading if it looks like kana and is long enough.
`none` models a falsy (absent or empty) reading. -/
def resolveYomiRaw (yomiRaw yomiCli : Option (List Char)) : Option (List Char) :=
  match yomiRaw with
  | none => none
  | some y =>
    if y ≠ [] ∧ hasKanji y then
      match yomiCli with
      | some ycli =>
        if ycli ≠ [] ∧ hasKana ycli ∧ max 3 (y.length / 2) ≤ ycli.length then
          some ycli
        else some y
      | none => some y
    else some y

/-- Lines 1051–1059: build `yomi_clean` from the raw reading, with the
katakana-filter fallback when the sanitizer output is too short.  The
empty list stands for a falsy `yomi_clean`. -/
def computeYomiClean (yomiRaw : Option (List Char)) : List Char :=
  match yomiRaw with
  | none => []
  | some y =>
    if y = [] then []
    else
      let yc := sanitize_yomi_keep_katakana y
      if yc = [] ∨ yc.length < 2 then
        let tmp := pyStrip (collapseRuns ((hira_to_kata y).filter isYomiKeep))
        if tmp ≠ [] ∧ 2 ≤ tmp.length then tmp else yc
      else yc

/-- Lines 1061–1069: normalize `yomi_clean`, keeping the unnormalized
value when normalization comes back empty. -/
def yomiCleanNormalized (yc : List Char) : List Char :=
  if yc = [] then yc
  else
    let ny := normalize_for_aquestalk false yc
    if ny ≠ [] then ny else yc

/-- The full `yomi_clean` pipeline of the orchestrator. -/
def yomiCleanOf (yomiRaw yomiCli : Option (List Char)) : List Char :=
  yomiCleanNormalized (computeYomiClean (resolveYomiRaw yomiRaw yomiCli))

/-- Lines 1076–1083: should the phonetic reading be tried first?
`forceOriginal` models the `AQUESTALK_FORCE_ORIGINAL=1` environment
override. -/
def preferYomiFirst (forceOriginal : Bool) (yomiClean prepped : List Char) : Bool :=
  if forceOriginal then false
  else decide (4 ≤ yomiClean.length) || original_is_likely_problematic prepped

/-- Lines 1085–1088: the base attempt order, dropping falsy entries. -/
def baseAttemptTexts (prefer : Bool) (yomiClean prepped sanitizedOrig : List Char) :
    List (List Char) :=
  (if prefer then [yomiClean, prepped, sanitizedOrig]
   else [prepped, yomiClean, sanitizedOrig]).filter (· ≠ [])

/-- Line 1096: `tn = normalize_for_aquestalk(t, to_hiragana=False) or t`. -/
def normOr (t : List Char) : List Char :=
  let tn := normalize_for_aquestalk false t
  if tn = [] then t else tn

/-- Lines 1092–1106: for each base text, consider its normalized form and
then the text itself, keeping each non-empty text the first time it is
seen. -/
def normCandidatesAux (seen : List (List Char)) : List (List Char) → List (List Char)
  | [] => []
  | t :: ts =>
    let tn := normOr t
    let a1 : List (List Char) × List (List Char) :=
      if tn ≠ [] ∧ tn ∉ seen then ([tn], tn :: seen) else ([], seen)
    let a2 : List (List Char) × List (List Char) :=
      if t ≠ [] ∧ t ∉ a1.2 then ([t], t :: a1.2) else ([], a1.2)
    a1.1 ++ a2.1 ++ normCandidatesAux a2.2 ts

/-- The interleaved candidate stream the dedup loop walks over. -/
def candStream (base : List (List Char)) : List (List Char) :=
  base.foldr (fun t acc => normOr t :: t :: acc) []

/-- Lines 1085–1106 combined: the final ordered candidate list
(`base_attempt_texts` after the normalize-and-dedup pass, falling back to
the unnormalized list if the pass filtered everything away). -/
def finalCandidates (prefer : Bool) (yomiClean prepped sanitizedOrig : List Char) :
    List (List Char) :=
  let base := baseAttemptTexts prefer yomiClean prepped sanitizedOrig
  let nc := normCandidatesAux [] base
  if nc = [] then base else nc

example :
    finalCandidates false [] ("こんにちは".toList) ("こんにちは".toList) =
      [("こんにちは".toList)] := by decide

/-! ## Per-clause candidates (`synthesize_aquestalk_clauses` lines 792–822) -/

/-- The trailing-comma run removed before synthesizing a clause:
`re.sub(r'[、，,]+$', '', clause_text)`. -/
def isCommaChar (c : Char) : Bool :=
  c.toNat = 0x3001 || c.toNat = 0xFF0C || c.toNat = 0x2C

/-- Line 792: the text actually synthesized for a clause. -/
def synthTextOf (clauseText : List Char) : List Char :=
  let s := pyStrip (dropTrail isCommaChar clauseText)
  if s = [] then clauseText else s

/-- Lines 799–822: the candidate texts for one clause — the original
clause text, the sanitized MeCab reading when available and non-empty
(no duplicate check), and the aggressive variant when non-empty and not
already present.  `yomi` is the reading oracle's answer for this clause. -/
def clauseCandidates (synthText : List Char) (yomi : Option (List Char)) :
    List (List Char) :=
  let c2 :=
    match yomi with
    | some y =>
      let yk := sanitize_yomi_keep_katakana y
      if yk = [] then [synthText] else [synthText, yk]
    | none => [synthText]
  let ag := aggressive_sanitize synthText
  if ag = [] ∨ ag ∈ c2 then c2 else c2 ++ [ag]

example : clauseCandidates ("ア".toList) (some ("ア".toList)) =
    [("ア".toList), ("ア".toList)] := by decide

/-! ## Synthesizer speed (`generate_tts_audio` line 996) -/

/-- `speed = max(30, min(400, int(rate * 100)))`, with `x` standing for
the truncated integer `int(rate * 100)`. -/
def aquestalkSpeed (x : Int) : Int :=
  max 30 (min 400 x)

/-! ## Oracle world and file-system state

External collaborators are oracles consumed in call order:
`synthO` is `synthesize_aquestalk_to_file` (which either raises before
touching the output path, returns without a file, or writes raw bytes to
the given path), `resampleOk` the per-clause ffmpeg re-encode,
`concatO` the final ffmpeg concat, and `clauseYomi` / the `y` counter the
MeCab reading lookups.  Files are `(size, duration)` pairs; paths other
than the output path and the per-clause temp files (debug copies, silence
clips, log files) are not modelled. -/

/-- Outcome of one `synthesize_aquestalk_to_file` call on a given path. -/
inductive SynthRes where
  | raised (msg : List Char)
  | noFile
  | wrote (size : ℕ) (dur : ℚ)

/-- `true` iff the call raised (so the target path was not touched). -/
def SynthRes.isRaised : SynthRes → Bool
  | .raised _ => true
  | _ => false

/-- Outcome of the final concat ffmpeg invocation: it may raise or return,
and in either case may or may not have (re)written the output path. -/
inductive ConcatRes where
  | raised (wrote : Option (ℕ × ℚ))
  | returned (wrote : Option (ℕ × ℚ))

structure World where
  synthO : ℕ → SynthRes
  resampleOk : ℕ → Bool
  concatO : ℕ → ConcatRes
  clauseYomi : ℕ → Option (List Char)

/-- File-system-and-counter state shared by the clause synthesizer and
the orchestrator. -/
structure CState where
  out : Option (ℕ × ℚ)       -- the intended output path
  tracked : List (Bool × ℕ)  -- `temp_files`: (is a `_norm_` file, size)
  stray : List ℕ             -- rejected clause-temp writes never tracked
  n : ℕ                      -- synthesizer-call counter
  r : ℕ                      -- resample counter
  k : ℕ                      -- concat counter
  y : ℕ                      -- reading-lookup counter
  deriving DecidableEq, Repr

def CState.bumpN (st : CState) : CState := { st with n := st.n + 1 }
def CState.bumpR (st : CState) : CState := { st with r := st.r + 1 }
def CState.bumpY (st : CState) : CState := { st with y := st.y + 1 }

def applyWrite (w : Option (ℕ × ℚ)) (cur : Option (ℕ × ℚ)) : Option (ℕ × ℚ) :=
  match w with
  | some x => some x
  | none => cur

/-! ## Clause synthesizer (`synthesize_aquestalk_clauses`) -/

/-- Why the clause synthesizer returned. -/
inductive ClausesRes where
  | ok          -- final output written and above the size threshold
  | clauseFail  -- some clause exhausted its candidates (line 859)
  | concatErr   -- the concat step raised / left no file (lines 913–918)
  | smallOut    -- concat output at or below 512 bytes (line 911)
  deriving DecidableEq, Repr

/-- The boolean the caller of `synthesize_aquestalk_clauses` sees. -/
def ClausesRes.isOk : ClausesRes → Bool
  | .ok => true
  | _ => false

/-- Lines 828–857: try each candidate text of one clause.  A write to the
clause temp path lands in `slot`; a successful candidate's artifact is
re-encoded (or, failing that, kept raw) and appended to `temp_files`,
emptying the slot.  Returns (success?, state, slot). -/
def tryClauseCands (w : World) :
    List (List Char) → CState → Option ℕ → Bool × CState × Option ℕ
  | [], st, slot => (false, st, slot)
  | _txt :: rest, st, slot =>
    match w.synthO st.n with
    | .raised _ => tryClauseCands w rest st.bumpN slot
    | .noFile => tryClauseCands w rest st.bumpN slot
    | .wrote sz _ =>
      let st1 := st.bumpN
      if sz ≤ 512 then tryClauseCands w rest st1 (some sz)
      else
        -- normalize the clause artifact to the enforced sample rate
        let ok := w.resampleOk st1.r
        let st2 := { st1.bumpR with tracked := st1.tracked ++ [(ok, sz)] }
        (true, st2, none)

/-- Lines 875–911: final concat of all clause artifacts into the output
path, then removal of the `_norm_` temp files and the size check. -/
def concatClauses (w : World) (st : CState) : ClausesRes × CState :=
  match w.concatO st.k with
  | .raised wr =>
    -- exception handler (lines 913–918): discard all tracked temps
    (.concatErr,
      { st with k := st.k + 1, out := applyWrite wr st.out, tracked := [] })
  | .returned wr =>
    let st1 := { st with k := st.k + 1, out := applyWrite wr st.out }
    match st1.out with
    | none =>
      -- os.path.getsize on the missing output raises (line 910) →
      -- exception handler discards all tracked temps
      (.concatErr, { st1 with tracked := [] })
    | some (sz, _) =>
      let st2 := { st1 with tracked := st1.tracked.filter (fun p => !p.1) }
      if 512 < sz then (.ok, st2) else (.smallOut, st2)

/-- Lines 790–873: per-clause loop.  On a clause failure all tracked temp
files are removed and the function returns `False`; a rejected write left
in the failing clause's temp slot becomes a stray file. -/
def runClauses (w : World) : List (List Char × List Char) → CState → ClausesRes × CState
  | [], st => concatClauses w st
  | (t, _d) :: rest, st =>
    let cands := clauseCandidates (synthTextOf t) (w.clauseYomi st.y)
    let res := tryClauseCands w cands st.bumpY none
    if res.1 = true then runClauses w rest res.2.1
    else
      (.clauseFail,
        { res.2.1 with tracked := [], stray := res.2.1.stray ++ res.2.2.toList })

/-- `video_worker.synthesize_aquestalk_clauses` (inter-clause pauses only
shape the concat command and are not modelled). -/
def synthesize_aquestalk_clauses (w : World) (text : List Char) (st : CState) :
    ClausesRes × CState :=
  runClauses w (clausesOf text) st

/-! ## Orchestrator (`generate_tts_audio`, AquesTalk path) -/

structure OConfig where
  forceClause : Bool    -- config `force_clause` / AQUESTALK_ALWAYS_CLAUSE
  forceHiragana : Bool  -- config `aquestalk_force_hiragana`
  forceOriginal : Bool  -- env AQUESTALK_FORCE_ORIGINAL
  perTextRetries : ℕ    -- config `aquestalk_per_text_retries` (default 2)
  aggressive : Bool     -- config `aquestalk_aggressive_retry`
  extraVoices : ℕ       -- voices added by `aquestalk_try_other_voices`

structure OState where
  cs : CState
  triedClause : Bool  -- `tried_clause_fallback`
  escal : ℕ           -- number of truncation-triggered clause escalations
  deriving Repr

/-- Lines 1174–1304: the per-candidate retry loop (`for trial in
range(1, PER_TEXT_RETRIES + 1)`).  Returns `(success?, state)`; `false`
covers both an exhausted retry budget and the `break` on an unclassified
exception, after which the caller moves to the next candidate.  A
malformed-symbol failure generates alternative texts (one CLI reading
lookup) and inserts them into `attempt_texts`, but the loop iterates a
snapshot (`enumerate(list(attempt_texts))`) taken before any insertion,
so the insertion itself is unobservable. -/
def runTrials (w : World) (prepped : List Char) : ℕ → OState → Bool × OState
  | 0, st => (false, st)
  | t + 1, st =>
    match w.synthO st.cs.n with
    | .raised msg =>
      let st1 := { st with cs := st.cs.bumpN }
      if is105Error msg then
        runTrials w prepped t { st1 with cs := st1.cs.bumpY }
      else (false, st1)  -- break: abandon this candidate
    | .noFile =>
      runTrials w prepped t { st with cs := st.cs.bumpN }
    | .wrote sz dur =>
      let st1 := { st with cs := { st.cs.bumpN with out := some (sz, dur) } }
      if 512 < sz then
        -- re-encode to the enforced sample rate (modelled as preserving
        -- the written artifact)
        let st2 := { st1 with cs := st1.cs.bumpR }
        let expected : ℚ := max (3 / 5) ((prepped.length : ℚ) * (3 / 50))
        if dur ≠ 0 ∧ dur < max (9 / 20) (expected * (11 / 20)) then
          if st2.triedClause then runTrials w prepped t st2
          else
            let st3 := { st2 with triedClause := true, escal := st2.escal + 1 }
            let res := synthesize_aquestalk_clauses w prepped st3.cs
            let st4 := { st3 with cs := res.2 }
            if res.1.isOk = true then (true, st4)
            else runTrials w prepped t st4
        else (true, st2)
      else runTrials w prepped t st1

/-- Lines 1172–1304: the candidate loop over the snapshot of
`attempt_texts`. -/
def candLoop (w : World) (prepped : List Char) (retries : ℕ) :
    List (List Char) → OState → Bool × OState
  | [], st => (false, st)
  | _txt :: rest, st =>
    let res := runTrials w prepped retries st
    if res.1 = true then res else candLoop w prepped retries rest res.2

/-- Lines 1166–1304: the voice loop (`voice_candidates`), each voice
iterating a fresh copy of the base candidate list (or `[prepped]` when it
is empty). -/
def voiceLoop (w : World) (prepped : List Char) (retries : ℕ)
    (cands : List (List Char)) : ℕ → OState → Bool × OState
  | 0, st => (false, st)
  | v + 1, st =>
    let cands1 := if cands = [] then [prepped] else cands
    let res := candLoop w prepped retries cands1 st
    if res.1 = true then res else voiceLoop w prepped retries cands v res.2

/-- Lines 1029–1034: the force-clause fast path (on success return,
otherwise fall through to the per-text attempts). -/
def forcePhase (w : World) (cfg : OConfig) (prepped : List Char) (st0 : OState) :
    Bool × OState :=
  if cfg.forceClause then
    let r := synthesize_aquestalk_clauses w prepped st0.cs
    (r.1.isOk, { st0 with cs := r.2 })
  else (false, st0)

/-- Lines 1306–1316: the final clause-based attempt, skipped when the
truncation escalation already ran the clause synthesizer. -/
def finalClausePhase (w : World) (prepped : List Char) (st2 : OState) :
    Bool × OState :=
  if !st2.triedClause then
    let r := synthesize_aquestalk_clauses w prepped st2.cs
    (r.1.isOk, { st2 with cs := r.2 })
  else (false, st2)

/-- `video_worker.generate_tts_audio`, AquesTalk voice source: the
force-clause fast path, the voice × candidate × retry matrix with
truncation escalation, and the final clause attempt.  `yomiRaw` /
`yomiCli` are the MeCab reading oracles for the whole utterance,
`initOut` the initial contents of the intended output path. -/
def generate_tts_audio (w : World) (cfg : OConfig) (sentence : List Char)
    (yomiRaw yomiCli : Option (List Char)) (initOut : Option (ℕ × ℚ)) :
    Bool × OState :=
  let prepped := preppedOf cfg.forceHiragana sentence
  let st0 : OState := ⟨⟨initOut, [], [], 0, 0, 0, 0⟩, false, 0⟩
  let fres := forcePhase w cfg prepped st0
  if fres.1 = true then (true, fres.2)
  else
    let yomiClean := yomiCleanOf yomiRaw yomiCli
    let sanitizedOrig := sanitize_for_aquestalk_fallback prepped
    let prefer := preferYomiFirst cfg.forceOriginal yomiClean prepped
    let cands := finalCandidates prefer yomiClean prepped sanitizedOrig
    let retries := if cfg.aggressive then max cfg.perTextRetries 4 else cfg.perTextRetries
    let vres := voiceLoop w prepped retries cands (1 + cfg.extraVoices) fres.2
    if vres.1 = true then (true, vres.2)
    else finalClausePhase w prepped vres.2

/-- Generic view of the normalize-and-dedup pass: walk a stream of
texts, keeping each non-empty text not seen before. -/
def dedupNE (seen : List (List Char)) : List (List Char) → List (List Char)
  | [] => []
  | x :: xs => if x ≠ [] ∧ x ∉ seen then x :: dedupNE (x :: seen) xs else dedupNE seen xs

/-- The escalation-counting invariant of the orchestrator loops. -/
def OInv (st : OState) : Prop :=
  st.escal ≤ if st.triedClause then 1 else 0

/-- The stub synthesizer of the spec's own test: every call "succeeds"
but writes only a 10-byte file (below the 512-byte threshold). -/
def stubSmallWrites : World :=
  ⟨fun _ => SynthRes.wrote 10 1, fun _ => true,
   fun _ => ConcatRes.returned none, fun _ => none⟩

/-- The synthesizer stub that always raises (nothing is ever written). -/
def stubAllRaise : World :=
  ⟨fun _ => SynthRes.raised ("failure".toList), fun _ => true,
   fun _ => ConcatRes.returned none, fun _ => none⟩

/-- A character the modelled NFKC fragment leaves alone: it has no
compatibility decomposition and is not a combining mark. -/
def PlainChar (c : Char) : Prop :=
  nfkcD c = [c] ∧ isCombiningMark c = false

instance (c : Char) : Decidable (PlainChar c) := by
  unfold PlainChar
  infer_instance

/-- The key set of the substitution table. -/
def aqDomain (c : Char) : Bool :=
  let n := c.toNat
  n = 0x30C2 || n = 0x30C5 || n = 0x30F4 || n = 0x3094 || n = 0x30FB ||
  n = 0x301C || n = 0x2010

/-- No two adjacent whitespace characters. -/
def noDoubleWs : List Char → Bool
  | a :: b :: t => (!(isWsChar a && isWsChar b)) && noDoubleWs (b :: t)
  | _ => true

/-- Every whitespace character is the ASCII space. -/
def allWsSpace (l : List Char) : Bool :=
  l.all fun c => !isWsChar c || c == ' '

/-- The first character, if any, is not whitespace. -/
def headNotWs : List Char → Bool
  | [] => true
  | c :: _ => !isWsChar c

/-- The last character, if any, is not whitespace. -/
def lastNotWs : List Char → Bool
  | [] => true
  | [c] => !isWsChar c
  | _ :: c :: t => lastNotWs (c :: t)

/-! ## Basic lemmas about the string operations -/

theorem eraseWs_append (a b : List Char) :
    eraseWs (a ++ b) = eraseWs a ++ eraseWs b := by
  simp [eraseWs, List.filter_append]

theorem eraseWs_cons_ws {c : Char} (l : List Char) (h : isWsChar c = true) :
    eraseWs (c :: l) = eraseWs l := by
  simp [eraseWs, h]

theorem eraseWs_cons_not_ws {c : Char} (l : List Char) (h : isWsChar c = false) :
    eraseWs (c :: l) = c :: eraseWs l := by
  simp [eraseWs, h]

theorem eraseWs_dropWhileWs (l : List Char) :
    eraseWs (l.dropWhile isWsChar) = eraseWs l := by
  induction l with
  | nil => rfl
  | cons c cs ih =>
    rcases hc : isWsChar c with _ | _
    · simp [List.dropWhile, hc]
    · simpa [List.dropWhile, hc, eraseWs_cons_ws _ hc] using ih

theorem dropTrailWs_nil_eraseWs (l : List Char)
    (h : dropTrail isWsChar l = []) : eraseWs l = [] := by
  induction l with
  | nil => rfl
  | cons c cs ih =>
    simp only [dropTrail] at h
    split at h
    · next hcond =>
      have h1 : dropTrail isWsChar cs = [] :=
        of_decide_eq_true ((Bool.and_eq_true _ _).mp hcond).1
      have h2 : isWsChar c = true := ((Bool.and_eq_true _ _).mp hcond).2
      rw [eraseWs_cons_ws _ h2]
      exact ih h1
    · exact absurd h (List.cons_ne_nil _ _)

theorem eraseWs_dropTrailWs (l : List Char) :
    eraseWs (dropTrail isWsChar l) = eraseWs l := by
  induction l with
  | nil => rfl
  | cons c cs ih =>
    simp only [dropTrail]
    split
    · next hcond =>
      have h1 : dropTrail isWsChar cs = [] :=
        of_decide_eq_true ((Bool.and_eq_true _ _).mp hcond).1
      have h2 : isWsChar c = true := ((Bool.and_eq_true _ _).mp hcond).2
      rw [eraseWs_cons_ws _ h2, dropTrailWs_nil_eraseWs cs h1]
      rfl
    · rcases hc : isWsChar c with _ | _
      · rw [eraseWs_cons_not_ws _ hc, eraseWs_cons_not_ws _ hc, ih]
      · rw [eraseWs_cons_ws _ hc, eraseWs_cons_ws _ hc]
        exact ih

theorem eraseWs_pyStrip (l : List Char) : eraseWs (pyStrip l) = eraseWs l := by
  rw [pyStrip, eraseWs_dropTrailWs, eraseWs_dropWhileWs]

theorem pyStrip_nil_eraseWs (l : List Char) (h : pyStrip l = []) :
    eraseWs l = [] := by
  rw [← eraseWs_pyStrip, h]
  rfl

/-! ## C5: clause split / rejoin -/

theorem resplit_ne_nil (s : List Char) : resplit s ≠ [] := by
  cases s with
  | nil => simp [resplit]
  | cons c cs =>
    simp only [resplit]
    split
    · simp
    · split <;> simp

theorem resplit_flatten (s : List Char) : (resplit s).flatten = s := by
  induction s with
  | nil => rfl
  | cons c cs ih =>
    simp only [resplit]
    split
    · simpa using ih
    · cases hr : resplit cs with
      | nil => exact absurd hr (resplit_ne_nil cs)
      | cons t rest =>
        rw [hr] at ih
        simpa using ih

theorem pairUp_join (parts : List (List Char)) :
    eraseWs (joinClauses (pairUp parts)) = eraseWs parts.flatten := by
  induction parts using pairUp.induct with
  | case1 => rfl
  | case2 p hps =>
    simp only [pairUp, if_pos hps, joinClauses, List.foldr_nil, List.flatten_cons,
      List.flatten_nil, List.append_nil]
    rw [pyStrip_nil_eraseWs p hps]
    rfl
  | case3 p hps =>
    simp only [pairUp, if_neg hps, joinClauses, List.foldr_cons, List.foldr_nil,
      List.flatten_cons, List.flatten_nil, List.append_nil]
    simpa using (eraseWs_pyStrip p)
  | case4 p d rest ih =>
    by_cases hg : pyStrip p = [] ∧ d = []
    · simp only [pairUp, if_pos hg, List.nil_append, List.flatten_cons]
      rw [ih, eraseWs_append, eraseWs_append, pyStrip_nil_eraseWs p hg.1, hg.2]
      rfl
    · simp only [pairUp, if_neg hg, List.singleton_append, joinClauses, List.foldr_cons,
        List.flatten_cons]
      have : eraseWs (pyStrip p ++ d ++ List.foldr (fun p acc => p.1 ++ p.2 ++ acc) [] (pairUp rest)) =
          eraseWs (pyStrip p) ++ eraseWs d ++ eraseWs (List.foldr (fun p acc => p.1 ++ p.2 ++ acc) [] (pairUp rest)) := by
        rw [eraseWs_append, eraseWs_append]
      rw [this, eraseWs_pyStrip]
      simp only [joinClauses] at ih
      rw [ih, eraseWs_append, eraseWs_append, List.append_assoc]

/-- C5: splitting an utterance into (clause text, trailing delimiter)
pairs and concatenating all clause texts and delimiters in order
reconstructs the original utterance modulo whitespace (whitespace-erased
equality; the per-part `strip()` deletes whitespace only around delimiter
boundaries and at the ends). -/
theorem clause_split_rejoin_reconstructs (s : List Char) :
    eraseWs (joinClauses (clausesOf s)) = eraseWs s := by
  simp only [clausesOf]
  split
  · next h =>
    simp only [joinClauses, List.foldr_cons, List.foldr_nil, List.append_nil]
    simpa using (eraseWs_pyStrip s)
  · next h =>
    rw [pairUp_join (resplit s), resplit_flatten]

/-! ## C10: synthesizer speed clamp -/

/-- C10: the speed handed to the synthesizer equals `int(rate * 100)`
clamped to the closed interval [30, 400] (`x` stands for the truncated
integer `int(rate * 100)`); no value of `x` escapes the range. -/
theorem aquestalk_speed_clamped (x : Int) :
    aquestalkSpeed x = max 30 (min 400 x) ∧
    30 ≤ aquestalkSpeed x ∧ aquestalkSpeed x ≤ 400 := by
  refine ⟨rfl, ?_, ?_⟩ <;>
  · simp only [aquestalkSpeed]
    omega

/-! ## C6: malformed-symbol classification -/

theorem leadsList_of_append (a b l : List Char)
    (h : leadsList (a ++ b) l = true) : leadsList a l = true := by
  induction a generalizing l with
  | nil => rfl
  | cons x xs ih =>
    cases l with
    | nil => simp [leadsList] at h
    | cons y ys =>
      simp only [List.cons_append, leadsList, Bool.and_eq_true] at h ⊢
      exact ⟨h.1, ih ys h.2⟩

theorem containsSeq_of_append (a b l : List Char)
    (h : containsSeq (a ++ b) l = true) : containsSeq a l = true := by
  induction l with
  | nil =>
    simp only [containsSeq, List.isEmpty_iff, List.append_eq_nil] at h ⊢
    exact h.1
  | cons y ys ih =>
    simp only [containsSeq, Bool.or_eq_true] at h ⊢
    rcases h with h | h
    · exact Or.inl (leadsList_of_append a b _ h)
    · exact Or.inr (ih h)

/-- C6 (amended): the malformed-symbol classification holds exactly when
the error message contains one of the literal substrings 未定義
("undefined"), 読み記号 ("reading symbol") or 105 — the fourth source
pattern 未定義の読み is subsumed by 未定義.  Matching is literal and
case-sensitive; no English wording is recognized. -/
theorem malformed_symbol_match_characterization (e : List Char) :
    is105Error e =
      (containsSeq ("未定義".toList) e || containsSeq ("読み記号".toList) e ||
       containsSeq ("105".toList) e) := by
  simp only [is105Error]
  cases h4 : containsSeq ("未定義の読み".toList) e with
  | false => simp
  | true =>
    have hsplit : ("未定義の読み".toList) = ("未定義".toList) ++ ("の読み".toList) := by
      decide
    have h1 : containsSeq ("未定義".toList) e = true :=
      containsSeq_of_append _ _ _ (hsplit ▸ h4)
    simp only [h1, Bool.true_or, Bool.or_true]

/-- C6 (counterexample): an English error message that carries the
"undefined" and "reading symbol" meanings (per the spec's case-insensitive
any-language requirement) is *not* classified as a malformed-symbol
failure by the code's matcher. -/
theorem malformed_symbol_english_not_matched :
    specMalformedMeaning ("Undefined reading symbol".toList) = true ∧
      is105Error ("Undefined reading symbol".toList) = false := by
  constructor <;> decide

/-! ## C3 / C7: candidate-list properties -/

theorem normCandidatesAux_eq_dedupNE (l : List (List Char)) :
    ∀ seen, normCandidatesAux seen l = dedupNE seen (candStream l) := by
  induction l with
  | nil => intro seen; rfl
  | cons t ts ih =>
    intro seen
    simp only [normCandidatesAux, candStream, List.foldr_cons, dedupNE]
    by_cases h1 : normOr t ≠ [] ∧ normOr t ∉ seen
    · rw [if_pos h1, if_pos h1]
      by_cases h2 : t ≠ [] ∧ t ∉ normOr t :: seen
      · rw [if_pos h2, if_pos h2]
        simpa [candStream] using congrArg (normOr t :: t :: ·) (ih (t :: normOr t :: seen))
      · rw [if_neg h2, if_neg h2]
        simpa [candStream] using congrArg (normOr t :: ·) (ih (normOr t :: seen))
    · rw [if_neg h1, if_neg h1]
      by_cases h2 : t ≠ [] ∧ t ∉ seen
      · rw [if_pos h2, if_pos h2]
        simpa [candStream] using congrArg (t :: ·) (ih (t :: seen))
      · rw [if_neg h2, if_neg h2]
        simpa [candStream] using ih seen

theorem dedupNE_sublist (l : List (List Char)) :
    ∀ seen, (dedupNE seen l).Sublist l := by
  induction l with
  | nil => intro seen; simp [dedupNE]
  | cons x xs ih =>
    intro seen
    simp only [dedupNE]
    split
    · exact List.Sublist.cons₂ x (ih (x :: seen))
    · exact List.Sublist.cons x (ih seen)

theorem dedupNE_not_mem_seen (l : List (List Char)) :
    ∀ seen x, x ∈ dedupNE seen l → x ∉ seen := by
  induction l with
  | nil => intro seen x hx; simp [dedupNE] at hx
  | cons y ys ih =>
    intro seen x hx
    simp only [dedupNE] at hx
    split at hx
    · next hcond =>
      rcases List.mem_cons.mp hx with rfl | hx'
      · exact hcond.2
      · intro hxs
        exact (ih _ x hx') (List.mem_cons_of_mem _ hxs)
    · exact ih _ x hx

theorem dedupNE_nodup (l : List (List Char)) :
    ∀ seen, (dedupNE seen l).Nodup := by
  induction l with
  | nil => intro seen; simp [dedupNE]
  | cons y ys ih =>
    intro seen
    simp only [dedupNE]
    split
    · refine List.nodup_cons.mpr ⟨?_, ih (y :: seen)⟩
      intro hy
      exact dedupNE_not_mem_seen ys (y :: seen) y hy (List.mem_cons_self y seen)
    · exact ih seen

theorem dedupNE_ne_nil (x : List Char) (xs : List (List Char)) (hx : x ≠ []) :
    dedupNE [] (x :: xs) = x :: dedupNE [x] xs := by
  simp [dedupNE, hx]

theorem normOr_ne_nil (t : List Char) (h : t ≠ []) : normOr t ≠ [] := by
  simp only [normOr]
  split
  · exact h
  · next hne => exact hne

theorem baseAttemptTexts_mem_ne_nil (prefer : Bool) (yc p so x : List Char)
    (hx : x ∈ baseAttemptTexts prefer yc p so) : x ≠ [] := by
  simp only [baseAttemptTexts] at hx
  have := List.of_mem_filter hx
  simpa using this

theorem baseAttemptTexts_ne_nil (prefer : Bool) (yc p so : List Char)
    (hp : p ≠ []) : baseAttemptTexts prefer yc p so ≠ [] := by
  have hmem : p ∈ baseAttemptTexts prefer yc p so := by
    simp only [baseAttemptTexts]
    cases prefer <;> simp [List.mem_filter, hp]
  exact List.ne_nil_of_mem hmem

theorem candStream_cons (t : List Char) (rest : List (List Char)) :
    candStream (t :: rest) = normOr t :: t :: candStream rest := rfl

theorem finalCandidates_of_cons (prefer : Bool) (yc p so t : List Char)
    (rest : List (List Char))
    (hb : baseAttemptTexts prefer yc p so = t :: rest) (ht : t ≠ []) :
    finalCandidates prefer yc p so =
      normOr t :: dedupNE [normOr t] (t :: candStream rest) := by
  simp only [finalCandidates, hb, normCandidatesAux_eq_dedupNE, candStream_cons]
  rw [dedupNE_ne_nil _ _ (normOr_ne_nil t ht)]
  simp

theorem finalCandidates_eq_dedup (prefer : Bool) (yc p so : List Char)
    (hp : p ≠ []) :
    finalCandidates prefer yc p so =
      dedupNE [] (candStream (baseAttemptTexts prefer yc p so)) := by
  cases hb : baseAttemptTexts prefer yc p so with
  | nil => exact absurd hb (baseAttemptTexts_ne_nil prefer yc p so hp)
  | cons t rest =>
    have ht : t ≠ [] :=
      baseAttemptTexts_mem_ne_nil prefer yc p so t (hb ▸ List.mem_cons_self t rest)
    rw [finalCandidates_of_cons prefer yc p so t rest hb ht, candStream_cons,
      dedupNE_ne_nil _ _ (normOr_ne_nil t ht)]

theorem clauseCandidates_cases (st : List Char) (yomi : Option (List Char)) :
    clauseCandidates st yomi = [st] ∨
    (clauseCandidates st yomi = [st, aggressive_sanitize st] ∧
      aggressive_sanitize st ≠ st) ∨
    (∃ y, yomi = some y ∧ sanitize_yomi_keep_katakana y ≠ [] ∧
      clauseCandidates st yomi = [st, sanitize_yomi_keep_katakana y]) ∨
    (∃ y, yomi = some y ∧ sanitize_yomi_keep_katakana y ≠ [] ∧
      aggressive_sanitize st ≠ st ∧
      aggressive_sanitize st ≠ sanitize_yomi_keep_katakana y ∧
      clauseCandidates st yomi =
        [st, sanitize_yomi_keep_katakana y, aggressive_sanitize st]) := by
  cases yomi with
  | none =>
    by_cases hag : aggressive_sanitize st = [] ∨ aggressive_sanitize st ∈ [st]
    · left
      simp only [clauseCandidates, if_pos hag]
    · right; left
      push_neg at hag
      have hne : aggressive_sanitize st ≠ st := by
        intro h
        exact hag.2 (by simp [h])
      refine ⟨?_, hne⟩
      simp only [clauseCandidates]
      rw [if_neg (by push_neg; exact hag)]
      rfl
  | some y =>
    by_cases hyk : sanitize_yomi_keep_katakana y = []
    · by_cases hag : aggressive_sanitize st = [] ∨ aggressive_sanitize st ∈ [st]
      · left
        simp only [clauseCandidates, if_pos hyk]
        rw [if_pos hag]
      · right; left
        push_neg at hag
        have hne : aggressive_sanitize st ≠ st := by
          intro h
          exact hag.2 (by simp [h])
        refine ⟨?_, hne⟩
        simp only [clauseCandidates, if_pos hyk]
        rw [if_neg (by push_neg; exact hag)]
        rfl
    · by_cases hag : aggressive_sanitize st = [] ∨
          aggressive_sanitize st ∈ [st, sanitize_yomi_keep_katakana y]
      · right; right; left
        refine ⟨y, rfl, hyk, ?_⟩
        simp only [clauseCandidates, if_neg hyk]
        rw [if_pos hag]
      · right; right; right
        push_neg at hag
        have hne1 : aggressive_sanitize st ≠ st := by
          intro h
          exact hag.2 (by simp [h])
        have hne2 : aggressive_sanitize st ≠ sanitize_yomi_keep_katakana y := by
          intro h
          exact hag.2 (by simp [h])
        refine ⟨y, rfl, hyk, hne1, hne2, ?_⟩
        simp only [clauseCandidates, if_neg hyk]
        rw [if_neg (by push_neg; exact hag)]
        rfl

/-- C3 (amended): the orchestrator's `base_attempt_texts` is non-empty,
duplicate-free and a subsequence of the normalized/raw candidate stream in
first-seen order; the per-clause candidate list is non-empty with the
original clause text first, but it is duplicate-free only when the
sanitized MeCab reading differs from the clause text — the reading
candidate is appended without a duplicate check (only the aggressive
variant is checked). -/
theorem candidate_lists_amended (prefer : Bool) (yc p so : List Char)
    (hp : p ≠ []) (st : List Char) (yomi : Option (List Char)) :
    (finalCandidates prefer yc p so ≠ [] ∧
     (finalCandidates prefer yc p so).Nodup ∧
     (finalCandidates prefer yc p so).Sublist
       (candStream (baseAttemptTexts prefer yc p so))) ∧
    (clauseCandidates st yomi ≠ [] ∧
     (clauseCandidates st yomi).head? = some st ∧
     ((∀ y, yomi = some y → sanitize_yomi_keep_katakana y ≠ st) →
       (clauseCandidates st yomi).Nodup)) := by
  constructor
  · refine ⟨?_, ?_, ?_⟩
    · cases hb : baseAttemptTexts prefer yc p so with
      | nil => exact absurd hb (baseAttemptTexts_ne_nil prefer yc p so hp)
      | cons t rest =>
        have ht : t ≠ [] :=
          baseAttemptTexts_mem_ne_nil prefer yc p so t (hb ▸ List.mem_cons_self t rest)
        rw [finalCandidates_of_cons prefer yc p so t rest hb ht]
        exact List.cons_ne_nil _ _
    · rw [finalCandidates_eq_dedup prefer yc p so hp]
      exact dedupNE_nodup _ []
    · rw [finalCandidates_eq_dedup prefer yc p so hp]
      exact dedupNE_sublist _ []
  · rcases clauseCandidates_cases st yomi with h | ⟨h, hne⟩ |
      ⟨y, hy, hyk, h⟩ | ⟨y, hy, hyk, hne1, hne2, h⟩ <;> rw [h]
    · exact ⟨by simp, by simp, fun _ => by simp⟩
    · exact ⟨by simp, by simp, fun _ => by simp [Ne.symm hne]⟩
    · refine ⟨by simp, by simp, fun hdiff => ?_⟩
      have := hdiff y hy
      simp [Ne.symm this]
    · refine ⟨by simp, by simp, fun hdiff => ?_⟩
      have h1 := hdiff y hy
      simp [Ne.symm h1, Ne.symm hne1, Ne.symm hne2]

/-- C3 (counterexample): a clause whose MeCab reading sanitizes to the
clause text itself (reading ア for clause text ア) yields a per-clause
candidate list with duplicate texts, refuting the claim that the
candidate lists are duplicate-free. -/
theorem clause_candidates_duplicate :
    ¬ (clauseCandidates ("ア".toList) (some ("ア".toList))).Nodup := by
  decide

/-- C3 witness for `candidate_lists_amended`. -/
theorem candidate_lists_amended_witness :
    (finalCandidates false [] ("あ".toList) [] ≠ [] ∧
     (finalCandidates false [] ("あ".toList) []).Nodup ∧
     (finalCandidates false [] ("あ".toList) []).Sublist
       (candStream (baseAttemptTexts false [] ("あ".toList) []))) ∧
    (clauseCandidates ("い".toList) none ≠ [] ∧
     (clauseCandidates ("い".toList) none).head? = some ("い".toList) ∧
     ((∀ y, (none : Option (List Char)) = some y →
        sanitize_yomi_keep_katakana y ≠ "い".toList) →
       (clauseCandidates ("い".toList) none).Nodup)) :=
  candidate_lists_amended false [] ("あ".toList) [] (by decide) ("い".toList) none

/-- C7: the ordering policy with the `AQUESTALK_FORCE_ORIGINAL` override
unset — if the phonetic reading is at least 4 characters long, or the
prepared raw text matches the likely-problematic heuristic and a reading
is available, the phonetic-reading candidate heads the attempt order
(modulo its final normalization pass, which maps each candidate through
`normOr`); otherwise the prepared (sanitized) raw text heads it. -/
theorem candidate_ordering_policy (yc p so : List Char) (hp : p ≠ []) :
    (4 ≤ yc.length ∨ (original_is_likely_problematic p = true ∧ yc ≠ []) →
      (finalCandidates (preferYomiFirst false yc p) yc p so).head? =
        some (normOr yc)) ∧
    (yc.length < 4 ∧ original_is_likely_problematic p = false →
      (finalCandidates (preferYomiFirst false yc p) yc p so).head? =
        some (normOr p)) := by
  constructor
  · intro h
    have hyc : yc ≠ [] := by
      rcases h with h | h
      · exact List.ne_nil_of_length_pos (by omega)
      · exact h.2
    have hpref : preferYomiFirst false yc p = true := by
      rcases h with h | h
      · simp [preferYomiFirst, h]
      · simp [preferYomiFirst, h.1]
    rw [hpref]
    have hb : baseAttemptTexts true yc p so =
        yc :: ([p, so].filter (· ≠ [])) := by
      simp [baseAttemptTexts, List.filter_cons, hyc]
    rw [finalCandidates_of_cons true yc p so yc _ hb hyc]
    rfl
  · rintro ⟨h4, hprob⟩
    have hpref : preferYomiFirst false yc p = false := by
      have hn : ¬ 4 ≤ yc.length := Nat.not_le.mpr h4
      simp [preferYomiFirst, hprob, hn]
    rw [hpref]
    have hb : baseAttemptTexts false yc p so =
        p :: ([yc, so].filter (· ≠ [])) := by
      simp [baseAttemptTexts, List.filter_cons, hp]
    rw [finalCandidates_of_cons false yc p so p _ hb hp]
    rfl

/-- C7 witness: a 4-character reading for a plain one-character utterance
puts the reading first; an unavailable reading with an unproblematic
utterance puts the prepared text first. -/
theorem candidate_ordering_policy_witness :
    (4 ≤ ("アイウエ".toList).length ∨
       (original_is_likely_problematic ("あ".toList) = true ∧ "アイウエ".toList ≠ []) →
      (finalCandidates (preferYomiFirst false ("アイウエ".toList) ("あ".toList))
          ("アイウエ".toList) ("あ".toList) []).head? =
        some (normOr ("アイウエ".toList))) ∧
    (("アイウエ".toList).length < 4 ∧
        original_is_likely_problematic ("あ".toList) = false →
      (finalCandidates (preferYomiFirst false ("アイウエ".toList) ("あ".toList))
          ("アイウエ".toList) ("あ".toList) []).head? =
        some (normOr ("あ".toList))) :=
  candidate_ordering_policy ("アイウエ".toList) ("あ".toList) [] (by decide)

/-! ## C4: truncation escalation happens at most once -/

theorem runTrials_inv (w : World) (prepped : List Char) :
    ∀ (t : ℕ) (st : OState), OInv st → OInv (runTrials w prepped t st).2 := by
  intro t
  induction t with
  | zero => intro st h; exact h
  | succ t ih =>
    intro st h
    rw [runTrials]
    split
    · split
      · exact ih _ h
      · exact h
    · exact ih _ h
    · dsimp only
      split
      · split
        · split
          · exact ih _ h
          · next htc =>
            have hst : st.triedClause = false := by
              simpa using htc
            have h0 : st.escal = 0 := by
              simp only [OInv, hst, Bool.false_eq_true, if_false] at h
              omega
            split
            · show OInv _
              simp [OInv, h0]
            · apply ih
              show OInv _
              simp [OInv, h0]
        · exact h
      · exact ih _ h

theorem candLoop_inv (w : World) (prepped : List Char) (retries : ℕ) :
    ∀ (cands : List (List Char)) (st : OState),
      OInv st → OInv (candLoop w prepped retries cands st).2 := by
  intro cands
  induction cands with
  | nil => intro st h; exact h
  | cons t rest ih =>
    intro st h
    rw [candLoop]
    split
    · exact runTrials_inv w prepped retries st h
    · exact ih _ (runTrials_inv w prepped retries st h)

theorem voiceLoop_inv (w : World) (prepped : List Char) (retries : ℕ)
    (cands : List (List Char)) :
    ∀ (v : ℕ) (st : OState),
      OInv st → OInv (voiceLoop w prepped retries cands v st).2 := by
  intro v
  induction v with
  | zero => intro st h; exact h
  | succ v ih =>
    intro st h
    rw [voiceLoop]
    split
    · split
      · exact candLoop_inv w prepped retries [prepped] st h
      · exact ih _ (candLoop_inv w prepped retries [prepped] st h)
    · split
      · exact candLoop_inv w prepped retries cands st h
      · exact ih _ (candLoop_inv w prepped retries cands st h)

theorem forcePhase_escal (w : World) (cfg : OConfig) (prepped : List Char)
    (st0 : OState) :
    (forcePhase w cfg prepped st0).2.escal = st0.escal ∧
    (forcePhase w cfg prepped st0).2.triedClause = st0.triedClause := by
  simp only [forcePhase]
  split <;> exact ⟨rfl, rfl⟩

theorem finalClausePhase_escal (w : World) (prepped : List Char) (st2 : OState) :
    (finalClausePhase w prepped st2).2.escal = st2.escal := by
  simp only [finalClausePhase]
  split <;> rfl

/-- C4: across all voices, candidates and per-text retries of one
`generate_tts_audio` call, the truncation-escalation path (a produced
duration below the length-derived threshold triggering a whole-utterance
clause-splitter attempt) is taken at most once; `escal` counts exactly
the truncation-triggered clause-splitter invocations, so a second
truncated output never triggers a second escalation. -/
theorem truncation_escalation_at_most_once (w : World) (cfg : OConfig)
    (sentence : List Char) (yomiRaw yomiCli : Option (List Char))
    (initOut : Option (ℕ × ℚ)) :
    (generate_tts_audio w cfg sentence yomiRaw yomiCli initOut).2.escal ≤ 1 := by
  have hbound : ∀ st : OState, OInv st → st.escal ≤ 1 := by
    intro st h
    simp only [OInv] at h
    split at h <;> omega
  have hfInv : OInv (forcePhase w cfg (preppedOf cfg.forceHiragana sentence)
      ⟨⟨initOut, [], [], 0, 0, 0, 0⟩, false, 0⟩).2 := by
    have hf := forcePhase_escal w cfg (preppedOf cfg.forceHiragana sentence)
      ⟨⟨initOut, [], [], 0, 0, 0, 0⟩, false, 0⟩
    simp only [OInv, hf.1, hf.2]
    simp
  simp only [generate_tts_audio]
  split
  · exact hbound _ hfInv
  · split <;> split
    · exact hbound _ (voiceLoop_inv w _ _ _ (1 + cfg.extraVoices) _ hfInv)
    · rw [finalClausePhase_escal]
      exact hbound _ (voiceLoop_inv w _ _ _ (1 + cfg.extraVoices) _ hfInv)
    · exact hbound _ (voiceLoop_inv w _ _ _ (1 + cfg.extraVoices) _ hfInv)
    · rw [finalClausePhase_escal]
      exact hbound _ (voiceLoop_inv w _ _ _ (1 + cfg.extraVoices) _ hfInv)

/-! ## C8 / C1: failure leaves the output and temp state predictable -/

theorem tryClauseCands_out (w : World) :
    ∀ (cands : List (List Char)) (st : CState) (slot : Option ℕ),
      (tryClauseCands w cands st slot).2.1.out = st.out := by
  intro cands
  induction cands with
  | nil => intro st slot; rfl
  | cons t rest ih =>
    intro st slot
    rw [tryClauseCands]
    cases hw : w.synthO st.n with
    | raised m => exact ih _ _
    | noFile => exact ih _ _
    | wrote sz dur =>
      dsimp only
      split
      · exact ih _ _
      · rfl

theorem concatClauses_ne_clauseFail (w : World) (st : CState) :
    (concatClauses w st).1 ≠ ClausesRes.clauseFail := by
  simp only [concatClauses]
  split
  · simp
  · split
    · simp
    · split <;> simp

theorem runClauses_clauseFail_state (w : World) :
    ∀ (cl : List (List Char × List Char)) (st : CState),
      (runClauses w cl st).1 = ClausesRes.clauseFail →
      (runClauses w cl st).2.out = st.out ∧ (runClauses w cl st).2.tracked = [] := by
  intro cl
  induction cl with
  | nil => intro st h; exact absurd h (concatClauses_ne_clauseFail w st)
  | cons c rest ih =>
    intro st h
    rw [runClauses] at h ⊢
    by_cases hok : (tryClauseCands w
        (clauseCandidates (synthTextOf c.1) (w.clauseYomi st.y)) st.bumpY none).1 = true
    · rw [if_pos hok] at h ⊢
      have hs := ih _ h
      exact ⟨hs.1.trans (tryClauseCands_out w _ _ _), hs.2⟩
    · rw [if_neg hok] at h ⊢
      exact ⟨tryClauseCands_out w _ _ _, rfl⟩

/-- C8 (amended): if the clause synthesizer fails because some clause
exhausted all of its candidate texts, the whole operation fails with the
output path untouched, and every *tracked* intermediate clause artifact
(`temp_files`) is discarded; rejected sub-threshold writes in the failing
clause's temp slot are not tracked and may remain (see the
counterexample). -/
theorem clause_failure_discards_tracked_temps (w : World) (text : List Char)
    (st : CState)
    (h : (synthesize_aquestalk_clauses w text st).1 = ClausesRes.clauseFail) :
    (synthesize_aquestalk_clauses w text st).2.out = st.out ∧
    (synthesize_aquestalk_clauses w text st).2.tracked = [] :=
  runClauses_clauseFail_state w (clausesOf text) st h

/-- C8 (counterexample): under the 10-byte stub the single clause of ア
fails after exhausting its candidates, and the rejected 10-byte write at
the clause's temp path is left behind — not every intermediate temp file
is discarded. -/
theorem clause_failure_leaves_stray_temp :
    (synthesize_aquestalk_clauses stubSmallWrites ("ア".toList)
        ⟨none, [], [], 0, 0, 0, 0⟩).1 = ClausesRes.clauseFail ∧
    (synthesize_aquestalk_clauses stubSmallWrites ("ア".toList)
        ⟨none, [], [], 0, 0, 0, 0⟩).2.stray ≠ [] := by
  constructor <;> decide

/-- C8 witness for `clause_failure_discards_tracked_temps`. -/
theorem clause_failure_discards_tracked_temps_witness :
    (synthesize_aquestalk_clauses stubSmallWrites ("ア".toList)
        ⟨none, [], [], 0, 0, 0, 0⟩).2.out = (⟨none, [], [], 0, 0, 0, 0⟩ : CState).out ∧
    (synthesize_aquestalk_clauses stubSmallWrites ("ア".toList)
        ⟨none, [], [], 0, 0, 0, 0⟩).2.tracked = [] :=
  clause_failure_discards_tracked_temps stubSmallWrites ("ア".toList)
    ⟨none, [], [], 0, 0, 0, 0⟩ (by decide)

theorem tryClauseCands_allRaise (w : World)
    (h : ∀ k, (w.synthO k).isRaised = true) :
    ∀ (cands : List (List Char)) (st : CState) (slot : Option ℕ),
      (tryClauseCands w cands st slot).1 = false := by
  intro cands
  induction cands with
  | nil => intro st slot; rfl
  | cons t rest ih =>
    intro st slot
    rw [tryClauseCands]
    cases hw : w.synthO st.n with
    | raised m => exact ih _ _
    | noFile =>
      have := h st.n
      rw [hw] at this
      simp [SynthRes.isRaised] at this
    | wrote sz dur =>
      have := h st.n
      rw [hw] at this
      simp [SynthRes.isRaised] at this

theorem clausesOf_ne_nil (s : List Char) : clausesOf s ≠ [] := by
  simp only [clausesOf]
  split
  · simp
  · next h => exact h

theorem runClauses_allRaise (w : World)
    (h : ∀ k, (w.synthO k).isRaised = true)
    (cl : List (List Char × List Char)) (st : CState) (hcl : cl ≠ []) :
    (runClauses w cl st).1 = ClausesRes.clauseFail := by
  cases cl with
  | nil => exact absurd rfl hcl
  | cons c rest =>
    rw [runClauses]
    rw [if_neg (by rw [tryClauseCands_allRaise w h]; simp)]

theorem synthClauses_allRaise (w : World)
    (h : ∀ k, (w.synthO k).isRaised = true) (text : List Char) (st : CState) :
    (synthesize_aquestalk_clauses w text st).1 = ClausesRes.clauseFail :=
  runClauses_allRaise w h (clausesOf text) st (clausesOf_ne_nil text)

theorem synthClauses_allRaise_out (w : World)
    (h : ∀ k, (w.synthO k).isRaised = true) (text : List Char) (st : CState) :
    (synthesize_aquestalk_clauses w text st).2.out = st.out :=
  (runClauses_clauseFail_state w (clausesOf text) st
    (synthClauses_allRaise w h text st)).1

theorem runTrials_allRaise (w : World) (prepped : List Char)
    (h : ∀ k, (w.synthO k).isRaised = true) :
    ∀ (t : ℕ) (st : OState),
      (runTrials w prepped t st).1 = false ∧
      (runTrials w prepped t st).2.cs.out = st.cs.out := by
  intro t
  induction t with
  | zero => intro st; exact ⟨rfl, rfl⟩
  | succ t ih =>
    intro st
    rw [runTrials]
    cases hw : w.synthO st.cs.n with
    | raised m =>
      dsimp only
      split
      · exact ih _
      · exact ⟨rfl, rfl⟩
    | noFile =>
      have := h st.cs.n
      rw [hw] at this
      simp [SynthRes.isRaised] at this
    | wrote sz dur =>
      have := h st.cs.n
      rw [hw] at this
      simp [SynthRes.isRaised] at this

theorem candLoop_allRaise (w : World) (prepped : List Char)
    (h : ∀ k, (w.synthO k).isRaised = true) (retries : ℕ) :
    ∀ (cands : List (List Char)) (st : OState),
      (candLoop w prepped retries cands st).1 = false ∧
      (candLoop w prepped retries cands st).2.cs.out = st.cs.out := by
  intro cands
  induction cands with
  | nil => intro st; exact ⟨rfl, rfl⟩
  | cons t rest ih =>
    intro st
    rw [candLoop]
    rw [if_neg (by rw [(runTrials_allRaise w prepped h retries st).1]; simp)]
    exact ⟨(ih _).1, (ih _).2.trans (runTrials_allRaise w prepped h retries st).2⟩

theorem voiceLoop_allRaise (w : World) (prepped : List Char)
    (h : ∀ k, (w.synthO k).isRaised = true) (retries : ℕ)
    (cands : List (List Char)) :
    ∀ (v : ℕ) (st : OState),
      (voiceLoop w prepped retries cands v st).1 = false ∧
      (voiceLoop w prepped retries cands v st).2.cs.out = st.cs.out := by
  intro v
  induction v with
  | zero => intro st; exact ⟨rfl, rfl⟩
  | succ v ih =>
    intro st
    rw [voiceLoop]
    rw [if_neg (by rw [(candLoop_allRaise w prepped h retries _ st).1]; simp)]
    exact ⟨(ih _).1, (ih _).2.trans (candLoop_allRaise w prepped h retries _ st).2⟩

theorem forcePhase_allRaise (w : World) (cfg : OConfig) (prepped : List Char)
    (h : ∀ k, (w.synthO k).isRaised = true) (st0 : OState) :
    (forcePhase w cfg prepped st0).1 = false ∧
    (forcePhase w cfg prepped st0).2.cs.out = st0.cs.out := by
  simp only [forcePhase]
  split
  · refine ⟨?_, synthClauses_allRaise_out w h prepped st0.cs⟩
    rw [synthClauses_allRaise w h prepped st0.cs]
    rfl
  · exact ⟨rfl, rfl⟩

theorem finalClausePhase_allRaise (w : World) (prepped : List Char)
    (h : ∀ k, (w.synthO k).isRaised = true) (st2 : OState) :
    (finalClausePhase w prepped st2).1 = false ∧
    (finalClausePhase w prepped st2).2.cs.out = st2.cs.out := by
  simp only [finalClausePhase]
  split
  · refine ⟨?_, synthClauses_allRaise_out w h prepped st2.cs⟩
    rw [synthClauses_allRaise w h prepped st2.cs]
    rfl
  · exact ⟨rfl, rfl⟩

/-- C1 (amended): the orchestrator itself never writes or deletes the
intended output path — whatever is there after a failed call is exactly
what the last synthesizer/concat write left.  In particular, when every
synthesizer attempt raises before writing (so nothing is ever written),
a failed synthesis leaves the output path exactly as it started —
absent if it was absent.  (When an attempt does write a sub-threshold
file, that artifact remains; see the counterexample.) -/
theorem failed_synthesis_output_untouched (w : World) (cfg : OConfig)
    (sentence : List Char) (yomiRaw yomiCli : Option (List Char))
    (initOut : Option (ℕ × ℚ))
    (h : ∀ k, (w.synthO k).isRaised = true) :
    (generate_tts_audio w cfg sentence yomiRaw yomiCli initOut).1 = false ∧
    (generate_tts_audio w cfg sentence yomiRaw yomiCli initOut).2.cs.out = initOut := by
  simp only [generate_tts_audio]
  have hf := forcePhase_allRaise w cfg (preppedOf cfg.forceHiragana sentence) h
    ⟨⟨initOut, [], [], 0, 0, 0, 0⟩, false, 0⟩
  rw [if_neg (by rw [hf.1]; simp)]
  have hv := voiceLoop_allRaise w (preppedOf cfg.forceHiragana sentence) h
  rw [if_neg (by rw [(hv _ _ (1 + cfg.extraVoices) _).1]; simp)]
  have hfin := finalClausePhase_allRaise w (preppedOf cfg.forceHiragana sentence) h
  refine ⟨(hfin _).1, ?_⟩
  rw [(hfin _).2, (hv _ _ (1 + cfg.extraVoices) _).2, hf.2]

/-- C1 (counterexample): under the spec's own 10-byte stub synthesizer,
`generate_tts_audio` exhausts all candidates, voices and the final clause
attempt and returns failure — yet the sub-threshold 10-byte artifact the
stub wrote is still present at the intended output path. -/
theorem failed_synthesis_leaves_artifact :
    (generate_tts_audio stubSmallWrites ⟨false, false, false, 2, false, 0⟩
        ("ア".toList) none none none).1 = false ∧
    (generate_tts_audio stubSmallWrites ⟨false, false, false, 2, false, 0⟩
        ("ア".toList) none none none).2.cs.out ≠ none := by
  constructor <;> decide

/-- C1 witness for `failed_synthesis_output_untouched`. -/
theorem failed_synthesis_output_untouched_witness :
    (generate_tts_audio stubAllRaise ⟨false, false, false, 2, false, 0⟩
        ("ア".toList) none none none).1 = false ∧
    (generate_tts_audio stubAllRaise ⟨false, false, false, 2, false, 0⟩
        ("ア".toList) none none none).2.cs.out = none :=
  failed_synthesis_output_untouched stubAllRaise ⟨false, false, false, 2, false, 0⟩
    ("ア".toList) none none none (fun _ => rfl)

/-! ## C9: the sanitizer output has no Latin letters and no controls -/

theorem char_toNat_ofNat {n : ℕ} (h : n < 55296) : (Char.ofNat n).toNat = n := by
  unfold Char.ofNat
  split
  · rfl
  · next hn => exact absurd (Or.inl h) hn

theorem mem_collapseRuns {c : Char} : ∀ {l : List Char},
    c ∈ collapseRuns l → c = ' ' ∨ c ∈ l := by
  intro l
  induction l with
  | nil => intro h; simp [collapseRuns] at h
  | cons a as ih =>
    intro h
    rw [collapseRuns] at h
    split at h
    · split at h
      · next heq =>
        rw [← heq] at h
        rcases ih h with h' | h'
        · exact Or.inl h'
        · exact Or.inr (List.mem_cons_of_mem _ h')
      · rcases List.mem_cons.mp h with h' | h'
        · exact Or.inl h'
        · rcases ih h' with h'' | h''
          · exact Or.inl h''
          · exact Or.inr (List.mem_cons_of_mem _ h'')
    · rcases List.mem_cons.mp h with h' | h'
      · exact Or.inr (by simp [h'])
      · rcases ih h' with h'' | h''
        · exact Or.inl h''
        · exact Or.inr (List.mem_cons_of_mem _ h'')

theorem mem_dropTrail {p : Char → Bool} {c : Char} : ∀ {l : List Char},
    c ∈ dropTrail p l → c ∈ l := by
  intro l
  induction l with
  | nil => intro h; simp [dropTrail] at h
  | cons a as ih =>
    intro h
    simp only [dropTrail] at h
    split at h
    · simp at h
    · rcases List.mem_cons.mp h with h' | h'
      · simp [h']
      · exact List.mem_cons_of_mem _ (ih h')

theorem mem_dropWhileWs {p : Char → Bool} {c : Char} : ∀ {l : List Char},
    c ∈ l.dropWhile p → c ∈ l := by
  intro l
  induction l with
  | nil => intro h; simp at h
  | cons a as ih =>
    intro h
    rw [List.dropWhile] at h
    split at h
    · exact List.mem_cons_of_mem _ (ih h)
    · exact h

theorem mem_pyStrip {c : Char} {l : List Char} (h : c ∈ pyStrip l) : c ∈ l :=
  mem_dropWhileWs (mem_dropTrail h)

theorem kata2hira_free {c : Char} (h1 : isLatinLetter c = false)
    (h2 : isCtrlChar c = false) :
    isLatinLetter (kata2hira c) = false ∧ isCtrlChar (kata2hira c) = false := by
  simp only [kata2hira]
  split
  · next hr =>
    simp only [Bool.and_eq_true, decide_eq_true_eq] at hr
    have hv : (Char.ofNat (c.toNat - 0x60)).toNat = c.toNat - 0x60 :=
      char_toNat_ofNat (by omega)
    constructor
    · simp only [isLatinLetter, hv, Bool.or_eq_false_iff, Bool.and_eq_false_iff,
        decide_eq_false_iff_not]
      omega
    · simp only [isCtrlChar, hv, Bool.or_eq_false_iff, Bool.and_eq_false_iff,
        decide_eq_false_iff_not]
      omega
  · exact ⟨h1, h2⟩

/-- C9: for every input string and both sanitizer modes, every character
of `normalize_for_aquestalk`'s output is neither an ASCII Latin letter
nor a control character (the classes stripped by the sanitizer). -/
theorem sanitizer_output_no_latin_no_control (toHira : Bool) (s : List Char)
    (c : Char) (hc : c ∈ normalize_for_aquestalk toHira s) :
    isLatinLetter c = false ∧ isCtrlChar c = false := by
  rw [normalize_for_aquestalk] at hc
  split at hc
  · next hs =>
    rw [hs] at hc
    simp at hc
  · have key : ∀ d : Char,
        d ∈ pyStrip (collapseRuns ((((nfkc s).map aqMap).filter
          (fun x => !isCtrlChar x)).filter (fun x => !isLatinLetter x))) →
        isLatinLetter d = false ∧ isCtrlChar d = false := by
      intro d hd
      rcases mem_collapseRuns (mem_pyStrip hd) with h' | h'
      · subst h'
        exact ⟨by decide, by decide⟩
      · have hlat := List.of_mem_filter h'
        have h'' := List.mem_of_mem_filter h'
        have hctl := List.of_mem_filter h''
        simp only [Bool.not_eq_true'] at hlat hctl
        exact ⟨hlat, hctl⟩
    split at hc
    · rcases List.mem_map.mp hc with ⟨d, hd, rfl⟩
      have := key d hd
      exact kata2hira_free this.1 this.2
    · exact key c hc

/-- C9 witness: the sanitized form of a mixed katakana/Latin/control
input contains the katakana but neither the letter nor the control
character. -/
theorem sanitizer_output_no_latin_no_control_witness :
    'ア' ∈ normalize_for_aquestalk false ("アA\u0001".toList) ∧
    isLatinLetter 'ア' = false ∧ isCtrlChar 'ア' = false :=
  ⟨by decide, sanitizer_output_no_latin_no_control false ("アA\u0001".toList) 'ア'
    (by decide)⟩

/-! ## C2: idempotence of the sanitizer on NFKC-stable input -/

theorem flatten_map_nfkcD (l : List Char) (h : ∀ c ∈ l, nfkcD c = [c]) :
    (l.map nfkcD).flatten = l := by
  induction l with
  | nil => rfl
  | cons a as ih =>
    simp only [List.map_cons, List.flatten_cons, h a (List.mem_cons_self a as)]
    rw [ih (fun c hc => h c (List.mem_cons_of_mem a hc))]
    rfl

theorem composePair_none {b : Char} (h : isCombiningMark b = false) (a : Char) :
    composePair a b = none := by
  simp only [isCombiningMark, Bool.or_eq_false_iff, decide_eq_false_iff_not] at h
  simp [composePair, h.1, h.2]

theorem nfkcComposeGo_id (l : List Char) (h : ∀ c ∈ l, isCombiningMark c = false) :
    ∀ a, nfkcComposeGo a l = a :: l := by
  induction l with
  | nil => intro a; rfl
  | cons b rest ih =>
    intro a
    rw [nfkcComposeGo, composePair_none (h b (List.mem_cons_self b rest)) a]
    rw [ih (fun c hc => h c (List.mem_cons_of_mem b hc)) b]

theorem nfkc_eq_self (l : List Char) (h : ∀ c ∈ l, PlainChar c) :
    nfkc l = l := by
  rw [nfkc, flatten_map_nfkcD l (fun c hc => (h c hc).1)]
  cases l with
  | nil => rfl
  | cons a rest =>
    rw [nfkcCompose]
    exact nfkcComposeGo_id rest
      (fun c hc => (h c (List.mem_cons_of_mem a hc)).2) a

theorem map_eq_self_of {f : Char → Char} {l : List Char}
    (h : ∀ c ∈ l, f c = c) : l.map f = l := by
  induction l with
  | nil => rfl
  | cons a as ih =>
    rw [List.map_cons, h a (List.mem_cons_self a as),
      ih (fun c hc => h c (List.mem_cons_of_mem a hc))]

theorem aqMap_eq_self (c : Char) (h : aqDomain c = false) : aqMap c = c := by
  simp only [aqDomain, Bool.or_eq_false_iff, decide_eq_false_iff_not] at h
  obtain ⟨⟨⟨⟨⟨⟨h1, h2⟩, h3⟩, h4⟩, h5⟩, h6⟩, h7⟩ := h
  simp [aqMap, h1, h2, h3, h4, h5, h6, h7]

theorem aqDomain_aqMap (c : Char) : aqDomain (aqMap c) = false := by
  by_cases h : aqDomain c = true
  · simp only [aqDomain, Bool.or_eq_true, decide_eq_true_eq] at h
    simp only [aqMap]
    rcases h with ((((((h | h) | h) | h) | h) | h) | h) <;> simp [h] <;> decide
  · rw [aqMap_eq_self c (Bool.not_eq_true _ ▸ (by simpa using h))]
    simpa using h

theorem aqMap_plain (c : Char) (h : PlainChar c) : PlainChar (aqMap c) := by
  by_cases hd : aqDomain c = true
  · simp only [aqDomain, Bool.or_eq_true, decide_eq_true_eq] at hd
    simp only [aqMap]
    rcases hd with ((((((h' | h') | h') | h') | h') | h') | h') <;> simp [h'] <;> decide
  · rw [aqMap_eq_self c (by simpa using hd)]
    exact h

theorem aqMap_ws (c : Char) : isWsChar (aqMap c) = isWsChar c := by
  by_cases hd : aqDomain c = true
  · simp only [aqDomain, Bool.or_eq_true, decide_eq_true_eq] at hd
    simp only [aqMap]
    rcases hd with ((((((h' | h') | h') | h') | h') | h') | h') <;>
      simp [h', isWsChar]
  · rw [aqMap_eq_self c (by simpa using hd)]

theorem plainChar_ofNat_mid {m : ℕ} (h1 : 0x3041 ≤ m) (h2 : m ≤ 0x3096) :
    PlainChar (Char.ofNat m) := by
  have hv := char_toNat_ofNat (show m < 55296 by omega)
  constructor
  · simp only [nfkcD, hv]
    rw [if_neg (by omega), if_neg (by omega),
      if_neg (by simp only [Bool.and_eq_true, decide_eq_true_eq, not_and]; omega),
      if_neg (by simp only [Bool.and_eq_true, decide_eq_true_eq, not_and]; omega)]
  · simp only [isCombiningMark, hv, Bool.or_eq_false_iff, decide_eq_false_iff_not]
    omega

theorem kata2hira_plain (c : Char) (h : PlainChar c) : PlainChar (kata2hira c) := by
  simp only [kata2hira]
  split
  · next hr =>
    simp only [Bool.and_eq_true, decide_eq_true_eq] at hr
    exact plainChar_ofNat_mid (by omega) (by omega)
  · exact h

theorem kata2hira_domain (c : Char) (h : aqDomain c = false) :
    aqDomain (kata2hira c) = false := by
  simp only [kata2hira]
  split
  · next hr =>
    simp only [Bool.and_eq_true, decide_eq_true_eq] at hr
    have hv := char_toNat_ofNat (show c.toNat - 0x60 < 55296 by omega)
    simp only [aqDomain, Bool.or_eq_false_iff, decide_eq_false_iff_not] at h ⊢
    obtain ⟨⟨⟨⟨⟨⟨h1, h2⟩, h3⟩, h4⟩, h5⟩, h6⟩, h7⟩ := h
    rw [hv]
    omega
  · exact h

theorem kata2hira_ws (c : Char) : isWsChar (kata2hira c) = isWsChar c := by
  simp only [kata2hira]
  split
  · next hr =>
    simp only [Bool.and_eq_true, decide_eq_true_eq] at hr
    have hv := char_toNat_ofNat (show c.toNat - 0x60 < 55296 by omega)
    have hl : isWsChar (Char.ofNat (c.toNat - 0x60)) = false := by
      simp only [isWsChar, hv, Bool.or_eq_false_iff, Bool.and_eq_false_iff,
        decide_eq_false_iff_not]
      omega
    have hr2 : isWsChar c = false := by
      simp only [isWsChar, Bool.or_eq_false_iff, Bool.and_eq_false_iff,
        decide_eq_false_iff_not]
      omega
    rw [hl, hr2]
  · rfl

theorem kata2hira_kata2hira (c : Char) :
    kata2hira (kata2hira c) = kata2hira c := by
  by_cases hr : (0x30A1 ≤ c.toNat && c.toNat ≤ 0x30F6) = true
  · have hm : kata2hira c = Char.ofNat (c.toNat - 0x60) := by
      simp only [kata2hira, if_pos hr]
    rw [hm]
    simp only [Bool.and_eq_true, decide_eq_true_eq] at hr
    have hv := char_toNat_ofNat (show c.toNat - 0x60 < 55296 by omega)
    simp only [kata2hira, hv]
    rw [if_neg (by simp only [Bool.and_eq_true, decide_eq_true_eq, not_and]; omega)]
  · have hm : kata2hira c = c := by
      simp only [kata2hira, if_neg hr]
    rw [hm]
    exact hm

theorem allWsSpace_cons (x : Char) (l : List Char) :
    allWsSpace (x :: l) = ((!isWsChar x || x == ' ') && allWsSpace l) := by
  simp [allWsSpace]

theorem allWsSpace_collapseRuns (l : List Char) :
    allWsSpace (collapseRuns l) = true := by
  induction l with
  | nil => rfl
  | cons a as ih =>
    rw [collapseRuns]
    split
    · split
      · next heq =>
        rw [← heq]
        exact ih
      · rw [allWsSpace_cons]
        rw [show (!isWsChar ' ' || ' ' == ' ') = true by decide]
        rw [Bool.true_and]
        exact ih
    · next hna =>
      rw [allWsSpace_cons]
      have : (!isWsChar a || a == ' ') = true := by
        have := Bool.of_not_eq_true hna
        simp [this]
      rw [this, Bool.true_and]
      exact ih

theorem noDoubleWs_tail {a : Char} {t : List Char}
    (h : noDoubleWs (a :: t) = true) : noDoubleWs t = true := by
  cases t with
  | nil => rfl
  | cons b t' =>
    rw [noDoubleWs, Bool.and_eq_true] at h
    exact h.2

theorem noDoubleWs_collapseRuns (l : List Char) :
    noDoubleWs (collapseRuns l) = true := by
  induction l with
  | nil => rfl
  | cons a as ih =>
    rw [collapseRuns]
    split
    · split
      · next heq =>
        rw [← heq]
        exact ih
      · next hne =>
        cases hcr : collapseRuns as with
        | nil => rfl
        | cons b rest =>
          have hb : b ≠ ' ' := by
            intro hb
            exact hne rest (by rw [hcr, hb])
          have hall := allWsSpace_collapseRuns as
          rw [hcr, allWsSpace_cons, Bool.and_eq_true] at hall
          have hwb : isWsChar b = false := by
            rcases Bool.or_eq_true _ _ |>.mp hall.1 with h' | h'
            · simpa using h'
            · exact absurd (by simpa using h') hb
          rw [noDoubleWs, hwb]
          rw [show (!(isWsChar ' ' && false)) = true by decide]
          rw [Bool.true_and, ← hcr]
          exact ih
    · next hna =>
      cases hcr : collapseRuns as with
      | nil => rfl
      | cons b rest =>
        rw [noDoubleWs]
        have hwa : isWsChar a = false := Bool.of_not_eq_true hna
        rw [hwa, Bool.false_and, Bool.not_false, Bool.true_and, ← hcr]
        exact ih

theorem collapseRuns_eq_self (l : List Char) (hall : allWsSpace l = true)
    (hnd : noDoubleWs l = true) : collapseRuns l = l := by
  induction l with
  | nil => rfl
  | cons a as ih =>
    have htall : allWsSpace as = true := by
      rw [allWsSpace_cons, Bool.and_eq_true] at hall
      exact hall.2
    have htnd := noDoubleWs_tail hnd
    rw [collapseRuns]
    by_cases hwa : isWsChar a = true
    · rw [if_pos hwa]
      have ha : a = ' ' := by
        rw [allWsSpace_cons, Bool.and_eq_true] at hall
        rcases Bool.or_eq_true _ _ |>.mp hall.1 with h' | h'
        · rw [hwa] at h'
          simp at h'
        · simpa using h'
      rw [ih htall htnd]
      cases as with
      | nil => rw [ha]
      | cons b t =>
        have hwb : isWsChar b = false := by
          rw [noDoubleWs, Bool.and_eq_true] at hnd
          have := hnd.1
          rw [hwa, Bool.true_and] at this
          simpa using this
        have hb : b ≠ ' ' := by
          intro hbe
          rw [hbe] at hwb
          simp [isWsChar] at hwb
        split
        · next rest heq =>
          have hbe : b = ' ' := by injection heq
          exact absurd hbe hb
        · rw [ha]
    · rw [if_neg hwa, ih htall htnd]

theorem dropWhileWs_eq_self (l : List Char) (h : headNotWs l = true) :
    l.dropWhile isWsChar = l := by
  cases l with
  | nil => rfl
  | cons a as =>
    rw [List.dropWhile_cons, if_neg]
    simp only [headNotWs, Bool.not_eq_true'] at h
    simp [h]

theorem dropTrailWs_eq_self (l : List Char) (h : lastNotWs l = true) :
    dropTrail isWsChar l = l := by
  induction l with
  | nil => rfl
  | cons a as ih =>
    cases as with
    | nil =>
      simp only [lastNotWs, Bool.not_eq_true'] at h
      simp [dropTrail, h]
    | cons b t =>
      have h' : lastNotWs (b :: t) = true := h
      rw [dropTrail]
      rw [show dropTrail isWsChar (b :: t) = b :: t from ih h']
      simp

theorem headNotWs_dropWhile (l : List Char) :
    headNotWs (l.dropWhile isWsChar) = true := by
  induction l with
  | nil => rfl
  | cons a as ih =>
    rw [List.dropWhile_cons]
    split
    · exact ih
    · next h => simpa [headNotWs] using h

theorem lastNotWs_dropTrail (l : List Char) :
    lastNotWs (dropTrail isWsChar l) = true := by
  induction l with
  | nil => rfl
  | cons a as ih =>
    rw [dropTrail]
    split
    · rfl
    · next hcond =>
      cases hr : dropTrail isWsChar as with
      | nil =>
        have hwa : isWsChar a = false := by
          rw [hr] at hcond
          simpa using hcond
        simp [lastNotWs, hwa]
      | cons b t =>
        show lastNotWs (b :: t) = true
        rw [← hr]
        exact ih

theorem headNotWs_dropTrail (l : List Char) (h : headNotWs l = true) :
    headNotWs (dropTrail isWsChar l) = true := by
  cases l with
  | nil => rfl
  | cons a as =>
    rw [dropTrail]
    split
    · rfl
    · exact h

theorem noDoubleWs_dropWhile (l : List Char) (h : noDoubleWs l = true) :
    noDoubleWs (l.dropWhile isWsChar) = true := by
  induction l with
  | nil => rfl
  | cons a as ih =>
    rw [List.dropWhile_cons]
    split
    · exact ih (noDoubleWs_tail h)
    · exact h

theorem dropTrail_head (as : List Char) (b : Char) (t : List Char)
    (h : dropTrail isWsChar as = b :: t) : ∃ t', as = b :: t' := by
  cases as with
  | nil => simp [dropTrail] at h
  | cons c cs =>
    rw [dropTrail] at h
    split at h
    · exact absurd h (by simp)
    · next =>
      injection h with h1 h2
      exact ⟨cs, by rw [h1]⟩

theorem noDoubleWs_dropTrail (l : List Char) (h : noDoubleWs l = true) :
    noDoubleWs (dropTrail isWsChar l) = true := by
  induction l with
  | nil => rfl
  | cons a as ih =>
    rw [dropTrail]
    split
    · rfl
    · cases hr : dropTrail isWsChar as with
      | nil => rfl
      | cons b t =>
        obtain ⟨t', hast⟩ := dropTrail_head as b t hr
        have hpair : (!(isWsChar a && isWsChar b)) = true := by
          rw [hast, noDoubleWs, Bool.and_eq_true] at h
          exact h.1
        rw [noDoubleWs, hpair, Bool.true_and, ← hr]
        exact ih (noDoubleWs_tail h)

theorem allWsSpace_subset {l l' : List Char} (hsub : ∀ c ∈ l', c ∈ l)
    (hall : allWsSpace l = true) : allWsSpace l' = true := by
  simp only [allWsSpace, List.all_eq_true] at hall ⊢
  exact fun c hc => hall c (hsub c hc)

theorem allWsSpace_map {f : Char → Char} (hf : ∀ c, isWsChar (f c) = isWsChar c)
    (hsp : f ' ' = ' ') {l : List Char} (h : allWsSpace l = true) :
    allWsSpace (l.map f) = true := by
  simp only [allWsSpace, List.all_eq_true] at h ⊢
  intro c hc
  rcases List.mem_map.mp hc with ⟨d, hd, rfl⟩
  have hdw := h d hd
  cases hw : isWsChar d with
  | false => simp [hf d, hw]
  | true =>
    have : d = ' ' := by
      rw [hw] at hdw
      simpa using hdw
    rw [this, hsp]
    simp

theorem noDoubleWs_map {f : Char → Char} (hf : ∀ c, isWsChar (f c) = isWsChar c) :
    ∀ {l : List Char}, noDoubleWs l = true → noDoubleWs (l.map f) = true := by
  intro l
  induction l with
  | nil => intro h; rfl
  | cons a as ih =>
    intro h
    cases as with
    | nil => rfl
    | cons b t =>
      rw [List.map_cons, List.map_cons, noDoubleWs, hf a, hf b]
      have hp : (!(isWsChar a && isWsChar b)) = true := by
        rw [noDoubleWs, Bool.and_eq_true] at h
        exact h.1
      rw [hp, Bool.true_and, ← List.map_cons]
      exact ih (noDoubleWs_tail h)

theorem headNotWs_map {f : Char → Char} (hf : ∀ c, isWsChar (f c) = isWsChar c)
    {l : List Char} (h : headNotWs l = true) : headNotWs (l.map f) = true := by
  cases l with
  | nil => rfl
  | cons a as =>
    simp only [List.map_cons, headNotWs, hf a]
    exact h

theorem lastNotWs_map {f : Char → Char} (hf : ∀ c, isWsChar (f c) = isWsChar c) :
    ∀ {l : List Char}, lastNotWs l = true → lastNotWs (l.map f) = true := by
  intro l
  induction l with
  | nil => intro h; rfl
  | cons a as ih =>
    intro h
    cases as with
    | nil =>
      simp only [List.map_cons, List.map_nil, lastNotWs, hf a]
      exact h
    | cons b t =>
      rw [List.map_cons]
      show lastNotWs (List.map f (b :: t)) = true
      exact ih h

theorem normalize_eq_of_fixed (toHira : Bool) (u : List Char)
    (hU : ∀ c ∈ u, PlainChar c ∧ aqDomain c = false ∧
      isLatinLetter c = false ∧ isCtrlChar c = false)
    (hall : allWsSpace u = true) (hnd : noDoubleWs u = true)
    (hh : headNotWs u = true) (hl : lastNotWs u = true)
    (hk : toHira = true → ∀ c ∈ u, kata2hira c = c) :
    normalize_for_aquestalk toHira u = u := by
  by_cases hu : u = []
  · rw [hu]
    rfl
  · rw [normalize_for_aquestalk, if_neg hu]
    have h1 : nfkc u = u := nfkc_eq_self u (fun c hc => (hU c hc).1)
    have h2 : u.map aqMap = u :=
      map_eq_self_of (fun c hc => aqMap_eq_self c (hU c hc).2.1)
    have h3 : u.filter (fun c => !isCtrlChar c) = u :=
      List.filter_eq_self.mpr (fun c hc => by simp [(hU c hc).2.2.2])
    have h4 : u.filter (fun c => !isLatinLetter c) = u :=
      List.filter_eq_self.mpr (fun c hc => by simp [(hU c hc).2.2.1])
    have h5 : collapseRuns u = u := collapseRuns_eq_self u hall hnd
    have h6 : pyStrip u = u := by
      rw [pyStrip, dropWhileWs_eq_self u hh, dropTrailWs_eq_self u hl]
    simp only [h1, h2, h3, h4, h5, h6]
    cases toHira with
    | false => rfl
    | true => exact map_eq_self_of (hk rfl)

/-- C2 (amended): `normalize_for_aquestalk` is idempotent, for each value
of the `to_hiragana` flag, on every input whose characters are NFKC-stable
and non-combining (no compatibility-decomposable characters such as
fullwidth forms and no combining (semi-)voiced sound marks).  On such
input the first pass produces a string each later pass fixes. -/
theorem normalize_idempotent_on_plain (toHira : Bool) (s : List Char)
    (h : ∀ c ∈ s, PlainChar c) :
    normalize_for_aquestalk toHira (normalize_for_aquestalk toHira s) =
      normalize_for_aquestalk toHira s := by
  by_cases hs : s = []
  · subst hs
    rfl
  · have hnfkc : nfkc s = s := nfkc_eq_self s h
    have hveq : normalize_for_aquestalk toHira s =
        (if toHira then
          (pyStrip (collapseRuns ((((nfkc s).map aqMap).filter
            (fun c => !isCtrlChar c)).filter (fun c => !isLatinLetter c)))).map kata2hira
         else
          pyStrip (collapseRuns ((((nfkc s).map aqMap).filter
            (fun c => !isCtrlChar c)).filter (fun c => !isLatinLetter c)))) := by
      rw [normalize_for_aquestalk, if_neg hs]
    have hs4_shape : ∀ c ∈ (((nfkc s).map aqMap).filter
        (fun c => !isCtrlChar c)).filter (fun c => !isLatinLetter c),
        (∃ c₀ ∈ s, c = aqMap c₀) ∧ isLatinLetter c = false ∧ isCtrlChar c = false := by
      intro c hc
      have h1 := List.mem_of_mem_filter hc
      have h2 := List.mem_of_mem_filter h1
      rcases List.mem_map.mp h2 with ⟨c₀, hc₀, rfl⟩
      rw [hnfkc] at hc₀
      refine ⟨⟨c₀, hc₀, rfl⟩, ?_, ?_⟩
      · have := List.of_mem_filter hc
        simpa using this
      · have := List.of_mem_filter h1
        simpa using this
    have hzU : ∀ c ∈ pyStrip (collapseRuns ((((nfkc s).map aqMap).filter
        (fun c => !isCtrlChar c)).filter (fun c => !isLatinLetter c))),
        PlainChar c ∧ aqDomain c = false ∧
        isLatinLetter c = false ∧ isCtrlChar c = false := by
      intro c hc
      rcases mem_collapseRuns (mem_pyStrip hc) with rfl | hc4
      · exact ⟨⟨by decide, by decide⟩, by decide, by decide, by decide⟩
      · obtain ⟨⟨c₀, hc₀, rfl⟩, hlat, hctl⟩ := hs4_shape _ hc4
        exact ⟨aqMap_plain c₀ (h c₀ hc₀), aqDomain_aqMap c₀, hlat, hctl⟩
    have hz_all : allWsSpace (pyStrip (collapseRuns ((((nfkc s).map aqMap).filter
        (fun c => !isCtrlChar c)).filter (fun c => !isLatinLetter c)))) = true :=
      allWsSpace_subset (fun c hc => mem_pyStrip hc) (allWsSpace_collapseRuns _)
    have hz_nd : noDoubleWs (pyStrip (collapseRuns ((((nfkc s).map aqMap).filter
        (fun c => !isCtrlChar c)).filter (fun c => !isLatinLetter c)))) = true := by
      rw [pyStrip]
      exact noDoubleWs_dropTrail _ (noDoubleWs_dropWhile _ (noDoubleWs_collapseRuns _))
    have hz_head : headNotWs (pyStrip (collapseRuns ((((nfkc s).map aqMap).filter
        (fun c => !isCtrlChar c)).filter (fun c => !isLatinLetter c)))) = true := by
      rw [pyStrip]
      exact headNotWs_dropTrail _ (headNotWs_dropWhile _)
    have hz_last : lastNotWs (pyStrip (collapseRuns ((((nfkc s).map aqMap).filter
        (fun c => !isCtrlChar c)).filter (fun c => !isLatinLetter c)))) = true := by
      rw [pyStrip]
      exact lastNotWs_dropTrail _
    rw [hveq]
    cases toHira with
    | false =>
      simp only [if_false, Bool.false_eq_true]
      exact normalize_eq_of_fixed false _ hzU hz_all hz_nd hz_head hz_last
        (fun hfalse => nomatch hfalse)
    | true =>
      simp only [if_true]
      refine normalize_eq_of_fixed true _ ?_ ?_ ?_ ?_ ?_ ?_
      · intro c hc
        rcases List.mem_map.mp hc with ⟨d, hd, rfl⟩
        obtain ⟨hp, hdm, hlat, hctl⟩ := hzU d hd
        have hfree := kata2hira_free hlat hctl
        exact ⟨kata2hira_plain d hp, kata2hira_domain d hdm, hfree.1, hfree.2⟩
      · exact allWsSpace_map kata2hira_ws (by decide) hz_all
      · exact noDoubleWs_map kata2hira_ws hz_nd
      · exact headNotWs_map kata2hira_ws hz_head
      · exact lastNotWs_map kata2hira_ws hz_last
      · intro _ c hc
        rcases List.mem_map.mp hc with ⟨d, hd, rfl⟩
        exact kata2hira_kata2hira d

/-- C2 (counterexample): the sanitizer is not idempotent on all strings.
For か followed by the Latin letter a and the combining voiced sound mark
U+3099, the first pass strips the letter and leaves か + U+3099
uncomposed, while the second pass NFKC-composes that pair into が. -/
theorem normalize_not_idempotent :
    normalize_for_aquestalk false
        (normalize_for_aquestalk false (['か', 'a', '゙'])) ≠
      normalize_for_aquestalk false (['か', 'a', '゙']) := by
  decide

/-- C2 witness for `normalize_idempotent_on_plain`. -/
theorem normalize_idempotent_on_plain_witness :
    (∀ c ∈ ("ヴあ  ア ".toList), PlainChar c) ∧
    normalize_for_aquestalk false
        (normalize_for_aquestalk false ("ヴあ  ア ".toList)) =
      normalize_for_aquestalk false ("ヴあ  ア ".toList) :=
  ⟨by decide, normalize_idempotent_on_plain false ("ヴあ  ア ".toList) (by decide)⟩
